import Mathlib

/-!
Verification of the ShaoTerm session-event archive subsystem
(`src/main/archive-store/jsonl-store.js`, the in-memory candidate index in
`src/main/archive-metrics.js` (`createMemoryArchiveIndex`), and the write path
`appendHeartbeatArchiveRecord` in `src/main.js`).

Shallow embedding conventions:
* JSON records are modelled as a `Record` structure; a `.jsonl` file's content
  is modelled as the `List Record` that `readJsonLines` would produce from it
  (one record per well-formed line; unparseable lines are absent from the
  model, matching the source's silent-skip behaviour).
* JavaScript `Map`/`Set` are modelled as association lists / duplicate-free
  lists in insertion order.
* Numeric query parameters are modelled as `Option Int` (`none` = missing or
  non-numeric, i.e. `Number(value)` is not finite; `Math.round` on an already
  integral value is the identity).
* Wall-clock time is passed explicitly (`now : Int` in epoch milliseconds,
  `nowIso : String` for `new Date().toISOString()`); the `elapsedMs` stat of a
  query is modelled as `0`.
* `String.prototype.localeCompare` on the ISO-like strings used here is
  modelled as lexicographic comparison; `toLowerCase` as `String.toLower`.
* File-system I/O errors other than "missing path" are not modelled (writes
  that the source attempts succeed in the model); `existsSync` is modelled
  exactly.
-/

namespace ShaoTerm

/-- Whitespace class of the JavaScript regex `\s` (ASCII part; the exotic
Unicode space characters are not used by this code base). -/
def jsIsSpace (c : Char) : Bool :=
  c == ' ' || c == '\t' || c == '\n' || c == '\r' || c == '\x0b' || c == '\x0c'

/-- Character-list core of `String.replace(/\s+/g, ' ')`: every maximal run of
whitespace becomes a single space.  The flag records whether the previous
character belonged to a whitespace run. -/
def collapseChars : Bool → List Char → List Char
  | _, [] => []
  | afterWs, c :: rest =>
    if jsIsSpace c then
      if afterWs then collapseChars true rest
      else ' ' :: collapseChars true rest
    else c :: collapseChars false rest

/-- `String.replace(/\s+/g, ' ')`. -/
def collapseWs (s : String) : String := ⟨collapseChars false s.data⟩

/-- `String.prototype.trim()`. -/
def jsTrim (s : String) : String :=
  ⟨((s.data.dropWhile jsIsSpace).reverse.dropWhile jsIsSpace).reverse⟩

/-- `String.prototype.slice(0, n)` (code-unit index modelled as character
index; all strings in play are within the BMP). -/
def sliceChars (n : Nat) (s : String) : String := ⟨s.data.take n⟩

/-- `sanitizeLine` of jsonl-store.js: collapse whitespace runs, trim, truncate
to `maxLength` characters. -/
def sanitizeLine (s : String) (maxLength : Nat) : String :=
  sliceChars maxLength (jsTrim (collapseWs s))

/-- `String.prototype.includes`. -/
def strIncludes (hay needle : String) : Bool :=
  hay.data.tails.any (fun t => needle.data.isPrefixOf t)

/-- `String.prototype.toLowerCase` (ASCII case mapping, which covers every
string this code base compares). -/
def toLowerStr (s : String) : String := ⟨s.data.map Char.toLower⟩

/-- Lexicographic comparison of character lists, via code points. -/
def charListLe : List Char → List Char → Bool
  | [], _ => true
  | _ :: _, [] => false
  | a :: as, b :: bs =>
    if a.toNat < b.toNat then true
    else if b.toNat < a.toNat then false
    else charListLe as bs

/-- Lexicographic string comparison; models `localeCompare` on the ISO-like
ASCII strings this code sorts by. -/
def strLe (a b : String) : Bool := charListLe a.data b.data

/-- Stable insertion of `x` into `l` w.r.t. the boolean comparator `le`:
`x` goes before the first element it compares `le` to. -/
def insertSorted (le : α → α → Bool) (x : α) : List α → List α
  | [] => [x]
  | y :: ys => if le x y then x :: y :: ys else y :: insertSorted le x ys

/-- Stable sort by the boolean comparator `le`.  ECMAScript requires
`Array.prototype.sort` to be stable, and a stable sort under a consistent
comparator has a unique result, so this models the source's sort calls. -/
def stableSort (le : α → α → Bool) : List α → List α
  | [] => []
  | x :: xs => insertSorted le x (stableSort le xs)

/-- `String.prototype.endsWith`. -/
def strEndsWith (s suffix : String) : Bool :=
  suffix.data.reverse.isPrefixOf s.data.reverse

/-- The two query modes accepted by the store. -/
inductive QueryMode where
  | auto
  | legacy
deriving DecidableEq

/-- `normalizeQueryMode` of jsonl-store.js. -/
def normalizeQueryMode (s : String) : QueryMode :=
  if toLowerStr (jsTrim s) == "legacy" then .legacy else .auto

/-- `clampInteger` of jsonl-store.js. `none` models a value for which
`Number(value)` is not finite. -/
def clampInteger (value : Option Int) (lo hi fallback : Int) : Int :=
  match value with
  | none => fallback
  | some n => min hi (max lo n)

/-- The `/^\d{4}-\d{2}-\d{2}$/` test of `isDayStamp` in jsonl-store.js. -/
def isDayStamp (s : String) : Bool :=
  match s.data with
  | [y1, y2, y3, y4, h1, m1, m2, h2, d1, d2] =>
    y1.isDigit && y2.isDigit && y3.isDigit && y4.isDigit && h1 == '-' &&
      m1.isDigit && m2.isDigit && h2 == '-' && d1.isDigit && d2.isDigit
  | _ => false

/-- Numeric value of a decimal digit character. -/
def digitVal (c : Char) : Nat := c.toNat - '0'.toNat

/-- Extract the `(year, month, day)` fields of a `YYYY-MM-DD` string, or
`none` if the string does not have that shape. -/
def dayStampFields (s : String) : Option (Nat × Nat × Nat) :=
  match s.data with
  | [y1, y2, y3, y4, h1, m1, m2, h2, d1, d2] =>
    if y1.isDigit && y2.isDigit && y3.isDigit && y4.isDigit && h1 == '-' &&
        m1.isDigit && m2.isDigit && h2 == '-' && d1.isDigit && d2.isDigit then
      some (((digitVal y1 * 10 + digitVal y2) * 10 + digitVal y3) * 10 + digitVal y4,
            digitVal m1 * 10 + digitVal m2,
            digitVal d1 * 10 + digitVal d2)
    else none
  | _ => none

/-- Gregorian leap-year test. -/
def isLeapYear (y : Nat) : Bool := (y % 4 == 0 && y % 100 != 0) || y % 400 == 0

/-- Number of days in month `m` of year `y`. -/
def daysInMonth (y m : Nat) : Nat :=
  if m == 2 then (if isLeapYear y then 29 else 28)
  else if m == 4 || m == 6 || m == 9 || m == 11 then 30
  else 31

/-- Days from 1970-01-01 to the civil date `y-m-d` (standard civil-calendar
day-number formula, Euclidean division). -/
def civilDays (y m d : Nat) : Int :=
  let yi : Int := if m ≤ 2 then (y : Int) - 1 else (y : Int)
  let era : Int := Int.ediv yi 400
  let yoe : Int := yi - era * 400
  let mp : Int := if 2 < m then (m : Int) - 3 else (m : Int) + 9
  let doy : Int := Int.ediv (153 * mp + 2) 5 + (d : Int) - 1
  let doe : Int := yoe * 365 + Int.ediv yoe 4 - Int.ediv yoe 100 + doy
  era * 146097 + doe - 719468

/-- `new Date(stamp + "T00:00:00Z").getTime()` for a day-stamp string:
epoch milliseconds of UTC midnight, or `none` (`NaN`) when the string is not
a valid calendar date (V8 rejects out-of-range components of ISO strings). -/
def dayStampToMs (s : String) : Option Int :=
  match dayStampFields s with
  | none => none
  | some (y, m, d) =>
    if 1 ≤ m ∧ m ≤ 12 ∧ 1 ≤ d ∧ d ≤ daysInMonth y m then
      some (civilDays y m d * 86400000)
    else none

/-- One archived event record (one JSON line).  Fields the source reads with
`record.x || ''` default to the empty string, so plain `String` fields are
faithful. -/
structure Record where
  ts : String
  sessionId : String
  tabId : String
  cwd : String
  eventType : String
  status : String
  summary : String
  analysis : String
deriving DecidableEq

/-- A default record (all fields empty); used only as the `getD` default in
theorem statements. -/
def defaultRecord : Record := ⟨"", "", "", "", "", "", "", ""⟩

/-- One `.jsonl` file: its name and the records its lines parse to. -/
structure ArchiveFile where
  name : String
  records : List Record
deriving DecidableEq

/-- One day directory under the archive root. -/
structure DayDir where
  day : String
  files : List ArchiveFile
deriving DecidableEq

/-- The on-disk state under the archive root.  `rootExists = false` models a
root directory that does not exist. -/
structure FS where
  rootExists : Bool
  days : List DayDir
deriving DecidableEq

/-- `path.join(dayDir, fileName)` relative to the archive root. -/
def joinPath (day name : String) : String := day ++ "/" ++ name

/-- `fs.existsSync` for a root-relative path. -/
def existsFile (fs : FS) (p : String) : Bool :=
  fs.rootExists && fs.days.any (fun d => d.files.any (fun f => joinPath d.day f.name == p))

/-- The path-to-records table of a list of day directories. -/
def dirEntries (days : List DayDir) : List (String × List Record) :=
  days.flatMap (fun d => d.files.map (fun f => (joinPath d.day f.name, f.records)))

/-- `readJsonLines` of jsonl-store.js: the records of the file at `p`, or `[]`
when the file cannot be read. -/
def readJsonLines (fs : FS) (p : String) : List Record :=
  if fs.rootExists then
    match (dirEntries fs.days).find? (fun e => e.1 == p) with
    | some e => e.2
    | none => []
  else []

/-- `collectDayDirectories` of jsonl-store.js: day-stamp-named directories
whose date is within the lookback window, newest first. -/
def collectDayDirectories (fs : FS) (now : Int) (days : Int) : List String :=
  if fs.rootExists then
    (((fs.days.map (fun d => d.day)).filter isDayStamp).filter
        (fun stamp =>
          match dayStampToMs stamp with
          | some ts => decide (now - ts ≤ days * 86400000)
          | none => false)) |> stableSort (fun a b => strLe b a)
  else []

/-- `listArchiveFilesByDays` of jsonl-store.js: every `.jsonl` file in the
given day directories, as root-relative paths. -/
def listArchiveFilesByDays (fs : FS) (dayStamps : List String) : List String :=
  if fs.rootExists then
    dayStamps.flatMap (fun day =>
      match fs.days.find? (fun d => d.day == day) with
      | none => []
      | some d =>
        (d.files.filter (fun f => strEndsWith f.name ".jsonl")).map
          (fun f => joinPath day f.name))
  else []

/-! ## In-memory candidate index (`createMemoryArchiveIndex`) -/

/-- A bucket: an insertion-ordered, duplicate-free list of file paths
(models a JavaScript `Set`). -/
abbrev Bucket := List String

/-- Lookup in an insertion-ordered map (models `Map.prototype.get`). -/
def bucketFind : List (String × Bucket) → String → Option Bucket
  | [], _ => none
  | (k, b) :: rest, key => if k = key then some b else bucketFind rest key

/-- Recursive worker of `addFileToBucket` (key and path already normalized
and non-empty). -/
def addFileToBucketGo : List (String × Bucket) → String → String →
    List (String × Bucket)
  | [], k, f => [(k, [f])]
  | (k', b) :: rest, k, f =>
    if k' = k then (k', if f ∈ b then b else b ++ [f]) :: rest
    else (k', b) :: addFileToBucketGo rest k f

/-- `addFileToBucket` of the memory index: trim key and path, skip when either
is empty, otherwise add the path to the key's bucket (creating it at the end
of the map, and keeping `Set` no-duplicate semantics). -/
def addFileToBucket (m : List (String × Bucket)) (key filePath : String) :
    List (String × Bucket) :=
  if jsTrim key = "" ∨ jsTrim filePath = "" then m
  else addFileToBucketGo m (jsTrim key) (jsTrim filePath)

/-- State of the in-memory candidate index. -/
structure MemoryIndex where
  bySessionId : List (String × Bucket)
  byTabId : List (String × Bucket)
  byEventType : List (String × Bucket)
  byDayStamp : List (String × Bucket)
  loadedDays : List String
deriving DecidableEq

/-- The index at process start: every map empty, no day loaded. -/
def emptyIndex : MemoryIndex := ⟨[], [], [], [], []⟩

/-- `addRecord` of the memory index. -/
def addRecord (idx : MemoryIndex) (r : Record) (filePath : String) : MemoryIndex :=
  if jsTrim filePath = "" then idx
  else
    { idx with
      bySessionId := addFileToBucket idx.bySessionId r.sessionId (jsTrim filePath)
      byTabId := addFileToBucket idx.byTabId r.tabId (jsTrim filePath)
      byEventType := addFileToBucket idx.byEventType r.eventType (jsTrim filePath)
      byDayStamp := addFileToBucket idx.byDayStamp (sliceChars 10 r.ts) (jsTrim filePath) }

/-- `markDayLoaded` of the memory index. -/
def markDayLoaded (idx : MemoryIndex) (dayStamp : String) : MemoryIndex :=
  if jsTrim dayStamp = "" ∨ jsTrim dayStamp ∈ idx.loadedDays then idx
  else { idx with loadedDays := idx.loadedDays ++ [jsTrim dayStamp] }

/-- `areDaysLoaded` of the memory index. -/
def areDaysLoaded (idx : MemoryIndex) (dayStamps : List String) : Bool :=
  if (dayStamps.map jsTrim).filter (fun d => d ≠ "") = [] then false
  else ((dayStamps.map jsTrim).filter (fun d => d ≠ "")).all
    (fun d => d ∈ idx.loadedDays)

/-- Insert into a `Set`-like list (append at the end when absent). -/
def setInsert (l : List String) (x : String) : List String :=
  if x ∈ l then l else l ++ [x]

/-- `unionBuckets` of the memory index: union of the buckets of the given
keys, in insertion order. -/
def unionBuckets (m : List (String × Bucket)) (keys : List String) : Bucket :=
  keys.foldl
    (fun acc k =>
      let kk := jsTrim k
      if kk = "" then acc
      else
        match bucketFind m kk with
        | none => acc
        | some b => b.foldl setInsert acc)
    []

/-- `new Set(list)`: deduplicate, keeping first occurrences. -/
def setDedup (l : List String) : List String := l.foldl setInsert []

/-- `intersectSets` of the memory index: sort by size ascending, seed with the
smallest, delete elements missing from any other set. -/
def intersectSets (sets : List Bucket) : Bucket :=
  match stableSort (fun a b => decide (a.length ≤ b.length)) sets with
  | [] => []
  | seed :: rest => (setDedup seed).filter (fun x => rest.all (fun s => x ∈ s))

/-- The filter argument of `getCandidateFiles`. -/
structure CandidateFilters where
  sessionId : String
  tabId : String
  eventType : String
  dayStamps : List String
deriving DecidableEq

/-- The non-empty bucket of a supplied dimension, as the zero-or-one-element
list the source pushes onto `sets` (missing or empty buckets are skipped). -/
def dimSet (m : List (String × Bucket)) (key : String) : List Bucket :=
  if jsTrim key ≠ "" then
    match bucketFind m (jsTrim key) with
    | some b => if b ≠ [] then [b] else []
    | none => []
  else []

/-- The `sets` array `getCandidateFiles` builds: one entry per supplied
dimension whose bucket is non-empty, the day stamps contributing the union of
their buckets. -/
def candidateSets (idx : MemoryIndex) (filters : CandidateFilters) : List Bucket :=
  dimSet idx.bySessionId filters.sessionId ++
  dimSet idx.byTabId filters.tabId ++
  dimSet idx.byEventType filters.eventType ++
  (if filters.dayStamps ≠ [] then
    (if unionBuckets idx.byDayStamp filters.dayStamps ≠ [] then
      [unionBuckets idx.byDayStamp filters.dayStamps] else [])
  else [])

/-- `getCandidateFiles` of the memory index: collect the buckets of the
supplied, non-empty filter dimensions (day-stamp buckets unioned first),
skipping dimensions whose bucket is missing or empty, then intersect. -/
def getCandidateFiles (idx : MemoryIndex) (filters : CandidateFilters) : List String :=
  if candidateSets idx filters = [] then [] else intersectSets (candidateSets idx filters)

/-! ## Metadata index (`index.json`) and store state -/

/-- One session's entry in the metadata index document (§3 of the spec). -/
structure SessionMeta where
  sessionId : String
  tabId : String
  cwd : String
  isAiSession : Bool
  cli : String
  provider : String
  model : String
  startedAt : String
  endedAt : Option String
  lastAt : String
  eventCount : Nat
  lastSummary : String
  lastAnalysis : String
  lastStatus : String
  archivePath : String
deriving DecidableEq

/-- The fields an absent session entry contributes (`undefined` reads). -/
def defaultSessionMeta : SessionMeta :=
  ⟨"", "", "", false, "", "", "", "", none, "", 0, "", "", "", ""⟩

/-- The metadata index document (`{version, updatedAt, sessions}`). -/
structure MetaDoc where
  version : Int
  updatedAt : String
  sessions : List (String × SessionMeta)
deriving DecidableEq

/-- `createEmptyArchiveIndexState`. -/
def emptyMetaDoc : MetaDoc := ⟨1, "", []⟩

/-- Metadata persistence state: the on-disk `index.json` document and the
mtime-keyed in-memory cache.  In this single-process model the cache is
refreshed on every read, so reads return `fileDoc` and successful writes set
both. -/
structure MetaState where
  fileDoc : MetaDoc
  cacheDoc : MetaDoc
deriving DecidableEq

/-- Metadata state before any write (`index.json` absent). -/
def emptyMetaState : MetaState := ⟨emptyMetaDoc, emptyMetaDoc⟩

/-- Whole mutable state owned by one store instance. -/
structure StoreState where
  idx : MemoryIndex
  meta : MetaState
deriving DecidableEq

/-- A fresh store instance's state. -/
def initialStoreState : StoreState := ⟨emptyIndex, emptyMetaState⟩

/-- Construction-time options of `createJsonlStore`.  `hasRoot` models
whether `getArchiveRootDir()` returns a non-empty string. -/
structure StoreOptions where
  hasRoot : Bool
  resolveSessionIdByTab : String → String
  maxQueryDays : Option Int
  defaultQueryDays : Option Int
  maxQueryLimit : Option Int
  defaultQueryLimit : Option Int

/-- `maxQueryDays` after the constructor's clamp. -/
def cfgMaxQueryDays (o : StoreOptions) : Int := clampInteger o.maxQueryDays 1 365 90

/-- `defaultQueryDays` after the constructor's clamp. -/
def cfgDefaultQueryDays (o : StoreOptions) : Int :=
  clampInteger o.defaultQueryDays 1 (cfgMaxQueryDays o) 14

/-- `maxQueryLimit` after the constructor's clamp. -/
def cfgMaxQueryLimit (o : StoreOptions) : Int := clampInteger o.maxQueryLimit 1 5000 200

/-- `defaultQueryLimit` after the constructor's clamp. -/
def cfgDefaultQueryLimit (o : StoreOptions) : Int :=
  clampInteger o.defaultQueryLimit 1 (cfgMaxQueryLimit o) 40

/-- Association-list lookup used for `sessions[sessionId]`. -/
def findSession : List (String × SessionMeta) → String → Option SessionMeta
  | [], _ => none
  | (k, m) :: rest, key => if k = key then some m else findSession rest key

/-- `{...sessions, [sessionId]: meta}`: replace in place, or append. -/
def setSession : List (String × SessionMeta) → String → SessionMeta →
    List (String × SessionMeta)
  | [], key, m => [(key, m)]
  | (k, m') :: rest, key, m =>
    if k = key then (k, m) :: rest else (k, m') :: setSession rest key m

/-- The argument object of `upsertSessionMeta`.  `Option` fields model
properties whose presence the source tests with `!== undefined`; the other
string fields behave identically when absent or empty, so `""` models
"unspecified". -/
structure MetaPayload where
  sessionId : String
  incrementEventCount : Bool
  startedAt : String
  lastAt : String
  endedAt : Option String
  tabId : String
  cwd : String
  isAiSession : Option Bool
  cli : String
  provider : String
  model : String
  archivePath : String
  lastSummary : Option String
  lastAnalysis : Option String
  lastStatus : Option String
deriving DecidableEq

/-- A payload with every field unspecified except `sessionId`. -/
def emptyPayload (sessionId : String) : MetaPayload :=
  ⟨sessionId, false, "", "", none, "", "", none, "", "", "", "", none, none, none⟩

/-- First non-empty of the sanitized payload value, the sanitized existing
value and the fallback (models the `a || b || c` chains). -/
def firstNonempty (a b c : String) : String :=
  if a ≠ "" then a else if b ≠ "" then b else c

/-- The next metadata entry `upsertSessionMeta` computes for a session:
payload fields merged over the `existing` entry exactly as in the source
(`a || b || fallback` chains for the string fields, `!== undefined` tests for
the `Option` fields, `eventCount` bumped when `incrementEventCount`). -/
def mergeSessionMeta (nowIso : String) (existing : SessionMeta) (p : MetaPayload)
    (sessionId : String) : SessionMeta :=
  { sessionId := sessionId
    tabId := firstNonempty (sanitizeLine p.tabId 80) (sanitizeLine existing.tabId 80) ""
    cwd := firstNonempty (sanitizeLine p.cwd 640) (sanitizeLine existing.cwd 640) ""
    isAiSession := (p.isAiSession).getD existing.isAiSession
    cli := firstNonempty (sanitizeLine p.cli 40) (sanitizeLine existing.cli 40) ""
    provider :=
      firstNonempty (sanitizeLine p.provider 40) (sanitizeLine existing.provider 40) ""
    model := firstNonempty (sanitizeLine p.model 80) (sanitizeLine existing.model 80) ""
    startedAt :=
      firstNonempty (sanitizeLine p.startedAt 40) (sanitizeLine existing.startedAt 40) nowIso
    endedAt :=
      match p.endedAt with
      | some v => if sanitizeLine v 40 = "" then none else some (sanitizeLine v 40)
      | none => existing.endedAt
    lastAt :=
      firstNonempty (sanitizeLine p.lastAt 40) (sanitizeLine existing.lastAt 40) nowIso
    eventCount := existing.eventCount + (if p.incrementEventCount then 1 else 0)
    lastSummary :=
      match p.lastSummary with
      | some v => sanitizeLine v 180
      | none => sanitizeLine existing.lastSummary 180
    lastAnalysis :=
      match p.lastAnalysis with
      | some v => sanitizeLine v 280
      | none => sanitizeLine existing.lastAnalysis 280
    lastStatus :=
      match p.lastStatus with
      | some v => sanitizeLine v 40
      | none => sanitizeLine existing.lastStatus 40
    archivePath :=
      firstNonempty (sanitizeLine p.archivePath 360)
        (sanitizeLine existing.archivePath 360) "" }

/-- The entry `upsertSessionMeta` reads as `existing` (an absent session
contributes the defaults). -/
def prevMeta (st : StoreState) (sid : String) : SessionMeta :=
  (findSession st.meta.fileDoc.sessions sid).getD defaultSessionMeta

/-- `upsertSessionMeta` of jsonl-store.js.  `nowIso` models
`new Date().toISOString()`.  Returns the source's boolean result and the
updated state; disk writes succeed whenever a root is configured. -/
def upsertSessionMeta (o : StoreOptions) (nowIso : String) (st : StoreState)
    (p : MetaPayload) : Bool × StoreState :=
  if sanitizeLine p.sessionId 120 = "" then (false, st)
  else if o.hasRoot then
    (true,
      { st with
        meta :=
          ⟨⟨1, nowIso,
              setSession st.meta.fileDoc.sessions (sanitizeLine p.sessionId 120)
                (mergeSessionMeta nowIso (prevMeta st (sanitizeLine p.sessionId 120)) p
                  (sanitizeLine p.sessionId 120))⟩,
            ⟨1, nowIso,
              setSession st.meta.fileDoc.sessions (sanitizeLine p.sessionId 120)
                (mergeSessionMeta nowIso (prevMeta st (sanitizeLine p.sessionId 120)) p
                  (sanitizeLine p.sessionId 120))⟩⟩ })
  else (false, st)

/-- `resolveArchiveFileBySessionId` of jsonl-store.js: the root-relative path
recorded for the session, or `""` when the session is unknown, records no
path, or the path does not exist on disk. -/
def resolveArchiveFileBySessionId (o : StoreOptions) (fs : FS) (st : StoreState)
    (sessionId : String) : String :=
  if o.hasRoot = false ∨ sessionId = "" then ""
  else
    match findSession st.meta.fileDoc.sessions sessionId with
    | none => ""
    | some m =>
      if m.archivePath = "" then ""
      else if existsFile fs m.archivePath then m.archivePath else ""

/-- Scan every `.jsonl` file of one day into the index. -/
def loadDayIntoIdx (fs : FS) (idx : MemoryIndex) (day : String) : MemoryIndex :=
  (listArchiveFilesByDays fs [day]).foldl
    (fun idx p => (readJsonLines fs p).foldl (fun idx r => addRecord idx r p) idx) idx

/-- One iteration of the hydration loop: skip an already-loaded day, else
scan it and mark it loaded. -/
def hydrateStep (fs : FS) (idx : MemoryIndex) (day : String) : MemoryIndex :=
  if areDaysLoaded idx [day] then idx
  else markDayLoaded (loadDayIntoIdx fs idx day) day

/-- `hydrateIndexForDays` of jsonl-store.js: scan every `.jsonl` file of each
not-yet-loaded day into the index, then mark the day loaded. -/
def hydrateIndexForDays (fs : FS) (dayStamps : List String) (idx : MemoryIndex) :
    MemoryIndex :=
  if dayStamps = [] then idx
  else if areDaysLoaded idx dayStamps then idx
  else dayStamps.foldl (hydrateStep fs) idx

/-- A bucket map records file `p` under `key`. -/
def bucketHasFile (m : List (String × Bucket)) (key p : String) : Prop :=
  ∃ b, bucketFind m key = some b ∧ p ∈ b

/-- The index has registered record `r` of file `p` in all four bucket maps
(under the keys `addRecord` derives, when they are non-empty). -/
def idxHasRecord (idx : MemoryIndex) (r : Record) (p : String) : Prop :=
  (jsTrim r.sessionId ≠ "" → bucketHasFile idx.bySessionId (jsTrim r.sessionId) p) ∧
  (jsTrim r.tabId ≠ "" → bucketHasFile idx.byTabId (jsTrim r.tabId) p) ∧
  (jsTrim r.eventType ≠ "" → bucketHasFile idx.byEventType (jsTrim r.eventType) p) ∧
  (jsTrim (sliceChars 10 r.ts) ≠ "" →
    bucketHasFile idx.byDayStamp (jsTrim (sliceChars 10 r.ts)) p)

/-- All file paths of a bucket map lie in `L`. -/
def bucketsSub (m : List (String × Bucket)) (L : List String) : Prop :=
  ∀ kb ∈ m, ∀ x ∈ kb.2, x ∈ L

/-- All file paths of all four bucket maps lie in `L`. -/
def idxSub (idx : MemoryIndex) (L : List String) : Prop :=
  bucketsSub idx.bySessionId L ∧ bucketsSub idx.byTabId L ∧
  bucketsSub idx.byEventType L ∧ bucketsSub idx.byDayStamp L

/-- Every record of every file of `day` is registered in the index. -/
def dayComplete (fs : FS) (idx : MemoryIndex) (day : String) : Prop :=
  ∀ p ∈ listArchiveFilesByDays fs [day], ∀ r ∈ readJsonLines fs p, idxHasRecord idx r p

/-! ## Query engine -/

/-- Raw `query`/`summarizeInput` options as the caller passed them. -/
structure QueryInput where
  days : Option Int
  limit : Option Int
  keyword : String
  eventType : String
  tabId : String
  cwd : String
  sessionId : String
  queryMode : String
deriving DecidableEq

/-- A query input with every field missing. -/
def emptyQueryInput : QueryInput := ⟨none, none, "", "", "", "", "", ""⟩

/-- The normalized options produced by `normalizeQueryOptions`. -/
structure QueryNorm where
  days : Int
  limit : Int
  keyword : String
  eventType : String
  tabId : String
  cwd : String
  sessionId : String
  queryMode : QueryMode
deriving DecidableEq

/-- `normalizeQueryOptions` of jsonl-store.js. -/
def normalizeQueryOptions (o : StoreOptions) (q : QueryInput) : QueryNorm :=
  let days := clampInteger q.days 1 (cfgMaxQueryDays o) (cfgDefaultQueryDays o)
  let limit := clampInteger q.limit 1 (cfgMaxQueryLimit o) (cfgDefaultQueryLimit o)
  let keyword := toLowerStr (sanitizeLine q.keyword 120)
  let eventType := sanitizeLine q.eventType 40
  let tabId := sanitizeLine q.tabId 80
  let cwd := sanitizeLine q.cwd 280
  let queryMode := normalizeQueryMode q.queryMode
  let sessionId0 := sanitizeLine q.sessionId 120
  let sessionId :=
    if sessionId0 = "" ∧ tabId ≠ "" then sanitizeLine (o.resolveSessionIdByTab tabId) 120
    else sessionId0
  ⟨days, limit, keyword, eventType, tabId, cwd, sessionId, queryMode⟩

/-- Result of `collectFilesForQuery`, plus the index state after the hydration
the call may have performed. -/
structure CollectOut where
  files : List String
  dayStamps : List String
  usedIndex : Bool
  idx : MemoryIndex
deriving DecidableEq

/-- The index after the hydration an `auto`-mode query performs for its day
window. -/
def hydratedIdx (o : StoreOptions) (fs : FS) (now : Int) (st : StoreState)
    (qn : QueryNorm) : MemoryIndex :=
  hydrateIndexForDays fs (collectDayDirectories fs now qn.days) st.idx

/-- The `indexedCandidates` list of `collectFilesForQuery`: the candidate
files of the hydrated index, restricted to files that exist on disk. -/
def indexedCandidates (o : StoreOptions) (fs : FS) (now : Int) (st : StoreState)
    (qn : QueryNorm) : List String :=
  (getCandidateFiles (hydratedIdx o fs now st qn)
      ⟨qn.sessionId, qn.tabId, qn.eventType, collectDayDirectories fs now qn.days⟩).filter
    (fun p => existsFile fs p)

/-- `collectFilesForQuery` of jsonl-store.js. -/
def collectFilesForQuery (o : StoreOptions) (fs : FS) (now : Int) (st : StoreState)
    (qn : QueryNorm) : CollectOut :=
  if qn.sessionId ≠ "" ∧ resolveArchiveFileBySessionId o fs st qn.sessionId ≠ "" then
    ⟨[resolveArchiveFileBySessionId o fs st qn.sessionId], [], false, st.idx⟩
  else if qn.queryMode = .legacy then
    ⟨listArchiveFilesByDays fs (collectDayDirectories fs now qn.days),
      collectDayDirectories fs now qn.days, false, st.idx⟩
  else if indexedCandidates o fs now st qn ≠ [] then
    ⟨indexedCandidates o fs now st qn, collectDayDirectories fs now qn.days, true,
      hydratedIdx o fs now st qn⟩
  else
    ⟨listArchiveFilesByDays fs (collectDayDirectories fs now qn.days),
      collectDayDirectories fs now qn.days, false, hydratedIdx o fs now st qn⟩

/-- The record filter of the `query` scan loop (all supplied filters ANDed;
unsupplied ones always pass). -/
def matchesFilters (qn : QueryNorm) (r : Record) : Bool :=
  (qn.sessionId = "" || r.sessionId == qn.sessionId) &&
  (qn.tabId = "" || r.tabId == qn.tabId) &&
  (qn.cwd = "" || strIncludes r.cwd qn.cwd) &&
  (qn.eventType = "" || r.eventType == qn.eventType) &&
  (qn.keyword = "" ||
    strIncludes (toLowerStr (r.summary ++ " " ++ r.analysis ++ " " ++ r.status)) qn.keyword)

/-- Descending-`ts` comparator of the `matched.sort` call
(`right.ts.localeCompare(left.ts)`). -/
def tsDescLe (l r : Record) : Bool := strLe r.ts l.ts

/-- The `matched` list of `query` before sorting and truncation: all records
of the resolved candidate files that pass every supplied filter. -/
def queryMatched (o : StoreOptions) (fs : FS) (now : Int) (st : StoreState)
    (qn : QueryNorm) : List Record :=
  if o.hasRoot = false then []
  else
    ((collectFilesForQuery o fs now st qn).files).flatMap
      (fun p => (readJsonLines fs p).filter (matchesFilters qn))

/-- The `stats` block of a query result.  `elapsedMs` is wall-clock time in
the source; the model returns `0`. -/
structure QueryStats where
  queryMode : QueryMode
  filesScanned : Nat
  usedIndex : Bool
  elapsedMs : Int
deriving DecidableEq

/-- The value `query` returns. -/
structure QueryResult where
  records : List Record
  total : Nat
  queryEcho : QueryNorm
  stats : QueryStats
deriving DecidableEq

/-- `query` of jsonl-store.js, with the state it leaves behind (hydration
mutates the shared in-memory index). -/
def query (o : StoreOptions) (fs : FS) (now : Int) (st : StoreState) (q : QueryInput) :
    QueryResult × StoreState :=
  let qn := normalizeQueryOptions o q
  if o.hasRoot = false then
    (⟨[], 0, qn, ⟨qn.queryMode, 0, false, 0⟩⟩, st)
  else
    let c := collectFilesForQuery o fs now st qn
    let matched := queryMatched o fs now st qn
    let sorted := stableSort tsDescLe matched
    (⟨sorted.take qn.limit.toNat, matched.length, qn,
        ⟨qn.queryMode, c.files.length, c.usedIndex, 0⟩⟩,
      { st with idx := c.idx })

/-- One line of `summarizeInput`'s timeline. -/
def timelineLine (r : Record) : String :=
  "[" ++ r.ts ++ "] " ++ (if r.status = "" then "进行中" else r.status) ++ " " ++
    r.summary ++ " " ++ r.analysis

/-- The value `summarizeInput` returns. -/
structure SummarizeOut where
  result : QueryResult
  timeline : String
  stats : QueryStats
deriving DecidableEq

/-- `summarizeInput` of jsonl-store.js: run `query`, format the 24 most
recent matched records oldest-first. -/
def summarizeInput (o : StoreOptions) (fs : FS) (now : Int) (st : StoreState)
    (q : QueryInput) : SummarizeOut × StoreState :=
  let (res, st2) := query o fs now st q
  let timeline :=
    String.intercalate "\n" (((res.records.take 24).reverse).map timelineLine)
  (⟨res, timeline, res.stats⟩, st2)

/-- The `meta` argument of the store facade's `append`. -/
structure AppendMeta where
  filePath : String
  sessionMeta : Option MetaPayload

/-- `append` of jsonl-store.js (the store facade).  Note that it performs no
file write: it only feeds the in-memory index and, when `meta.sessionMeta` is
given, the metadata index.  Its file-system argument is returned untouched,
mirroring the absence of any `fs` call in the source function. -/
def storeAppend (o : StoreOptions) (nowIso : String) (fs : FS) (st : StoreState)
    (record : Record) (meta : AppendMeta) : FS × StoreState :=
  let fp := jsTrim meta.filePath
  let idx := if fp ≠ "" then addRecord st.idx record fp else st.idx
  let st2 : StoreState := { st with idx := idx }
  match meta.sessionMeta with
  | some p => (fs, (upsertSessionMeta o nowIso st2 p).2)
  | none => (fs, st2)

/-- Append `r` to the file called `name` in a directory's file list, creating
the file when absent. -/
def updateFiles (files : List ArchiveFile) (name : String) (r : Record) :
    List ArchiveFile :=
  if files.any (fun f => f.name == name) then
    files.map (fun f => if f.name == name then ⟨f.name, f.records ++ [r]⟩ else f)
  else files ++ [⟨name, [r]⟩]

/-- Map the one matching day directory through the file-level append. -/
def updateDays (days : List DayDir) (day name : String) (r : Record) : List DayDir :=
  days.map (fun d => if d.day == day then ⟨d.day, updateFiles d.files name r⟩ else d)

/-- The durable one-line append performed by `appendHeartbeatArchiveRecord` in
`src/main.js` (`fs.appendFileSync(filePath, JSON.stringify(record) + "\n")`
after `ensureDirSync`): append one record to the named file, creating the day
directory and the file as needed. -/
def appendRecordToFile (fs : FS) (day name : String) (r : Record) : FS :=
  if fs.days.any (fun d => d.day == day) then ⟨true, updateDays fs.days day name r⟩
  else ⟨true, fs.days ++ [⟨day, [⟨name, [r]⟩]⟩]⟩

/-- A directory or file name that contains no path separator (true for every
name the archive writes: day stamps and sanitized session ids). -/
def noSlash (s : String) : Bool := !(s.data.contains '/')

/-- Well-formedness of the modelled file system: it mirrors a real directory
tree (a nonexistent root has no children, sibling names are unique and
contain no separator). -/
def fsWF (fs : FS) : Prop :=
  (fs.rootExists = true ∨ fs.days = []) ∧
  (fs.days.map (fun d => d.day)).Nodup ∧
  (∀ d ∈ fs.days, (d.files.map (fun f => f.name)).Nodup) ∧
  (∀ d ∈ fs.days, noSlash d.day = true) ∧
  (∀ d ∈ fs.days, ∀ f ∈ d.files, noSlash f.name = true)

instance (fs : FS) : Decidable (fsWF fs) := by
  unfold fsWF
  infer_instance

/-- Written from the spec sentence of C5 (not from the source): the file set
of each SUPPLIED filter dimension, empty buckets included — `sessionId`,
`tabId`, `eventType` contribute the bucket of their key, the day stamps
contribute the union of their buckets. -/
def c5SuppliedSets (idx : MemoryIndex) (filters : CandidateFilters) : List Bucket :=
  (if jsTrim filters.sessionId ≠ "" then
    [(bucketFind idx.bySessionId (jsTrim filters.sessionId)).getD []] else []) ++
  (if jsTrim filters.tabId ≠ "" then
    [(bucketFind idx.byTabId (jsTrim filters.tabId)).getD []] else []) ++
  (if jsTrim filters.eventType ≠ "" then
    [(bucketFind idx.byEventType (jsTrim filters.eventType)).getD []] else []) ++
  (if filters.dayStamps ≠ [] then [unionBuckets idx.byDayStamp filters.dayStamps] else [])

/-- Written from the spec sentence of C5: membership in "the intersection of
the per-filter-dimension file sets for every supplied dimension", with an
empty result when no dimension is supplied. -/
def c5SpecMember (idx : MemoryIndex) (filters : CandidateFilters) (x : String) : Prop :=
  c5SuppliedSets idx filters ≠ [] ∧ ∀ S ∈ c5SuppliedSets idx filters, x ∈ S

/-! ## Concrete fixtures used by witnesses and counterexamples -/

/-- Store options mirroring the repository's own test harness
(root configured, no tab resolution, default clamps). -/
def optsW : StoreOptions := ⟨true, fun _ => "", none, none, none, none⟩

/-- The day used by the concrete scenarios. -/
def dayW : String := "2026-10-11"

/-- 2026-10-11T12:00:00Z in epoch milliseconds. -/
def nowW : Int := 1791720000000

/-- Scenario record A (no occurrence of the keyword `needle`). -/
def recW1 : Record :=
  ⟨"2026-10-11T09:00:00.000Z", "s1", "t1", "/tmp", "heartbeat", "ok", "alpha", "aa"⟩

/-- Scenario record B (contains the keyword `needle`). -/
def recW2 : Record :=
  ⟨"2026-10-11T10:00:00.000Z", "s1", "t1", "/tmp", "heartbeat", "ok", "needle run", "bb"⟩

/-- A record whose `ts` day (2020-01-01) differs from the day directory that
holds its file. -/
def recOldTs : Record :=
  ⟨"2020-01-01T00:00:00.000Z", "s9", "t1", "/tmp", "heartbeat", "ok", "needle run", "x"⟩

/-- Day directory holding only `a.jsonl` with record A. -/
def fsW1 : FS := appendRecordToFile ⟨true, []⟩ dayW "a.jsonl" recW1

/-- Store state after the facade indexed record A. -/
def stW1 : StoreState :=
  (storeAppend optsW "t0" fsW1 initialStoreState recW1 ⟨"2026-10-11/a.jsonl", none⟩).2

/-- A tab-filtered query (mode `auto`). -/
def qTabW : QueryInput := ⟨some 1, none, "", "", "t1", "", "", ""⟩

/-- Store state after one `auto` query marked the day loaded. -/
def stW2 : StoreState := (query optsW fsW1 nowW stW1 qTabW).2

/-- The file system after `b.jsonl` (record B) appeared in the now-loaded day. -/
def fsW2 : FS := appendRecordToFile fsW1 dayW "b.jsonl" recW2

/-- Keyword query for record B's distinguishing keyword, mode `auto`. -/
def qNeedleAuto : QueryInput := ⟨some 1, none, "needle", "", "t1", "", "", ""⟩

/-- Keyword query for record B's distinguishing keyword, mode `legacy`. -/
def qNeedleLegacy : QueryInput := ⟨some 1, none, "needle", "", "t1", "", "", "legacy"⟩

/-- The legacy-mode tab query used by several witnesses. -/
def qTabLegW : QueryInput := ⟨some 1, none, "", "", "t1", "", "", "legacy"⟩

/-- Counterexample file system for C1: one day directory within the window,
`f.jsonl` holds the keyword-matching record whose `ts` day lies outside the
window, `g.jsonl` holds a record with a matching in-window `ts` day. -/
def fsCex : FS :=
  ⟨true, [⟨dayW, [⟨"f.jsonl", [recOldTs]⟩, ⟨"g.jsonl", [recW1]⟩]⟩]⟩

/-- Counterexample file system for C2: the target file exists and is empty. -/
def fsC2 : FS := ⟨true, [⟨dayW, [⟨"a.jsonl", []⟩]⟩]⟩

/-- Counterexample index for C5: no session bucket, one tab bucket. -/
def idxC5 : MemoryIndex := ⟨[], [("t1", ["f"])], [], [], []⟩

/-- Counterexample filters for C5: a supplied session id with no bucket plus
a supplied tab id whose bucket is non-empty. -/
def filtersC5 : CandidateFilters := ⟨"missing", "t1", "", []⟩

/-- Witness index for C5: both supplied dimensions have non-empty buckets. -/
def idxW5 : MemoryIndex := ⟨[("s1", ["f"])], [("t1", ["f", "g"])], [], [], []⟩

/-- Witness filters for C5. -/
def filtersW5 : CandidateFilters := ⟨"s1", "t1", "", []⟩

/-- A tab id of 81 characters whose 80-character truncation ends in a space:
79 `a`s, a space, and a `b`. -/
def longTabId : String :=
  "aaaaaaaaaaaaaaaaaaaaaaaaaaaaaaaaaaaaaaaaaaaaaaaaaaaaaaaaaaaaaaaaaaaaaaaaaaaaaaa b"

/-- `longTabId` as stored by the first upsert (truncated to 80 characters,
trailing space kept). -/
def storedTabId : String :=
  "aaaaaaaaaaaaaaaaaaaaaaaaaaaaaaaaaaaaaaaaaaaaaaaaaaaaaaaaaaaaaaaaaaaaaaaaaaaaaaa "

/-- The same value after the second upsert re-sanitizes it (trailing space
stripped). -/
def resanitizedTabId : String :=
  "aaaaaaaaaaaaaaaaaaaaaaaaaaaaaaaaaaaaaaaaaaaaaaaaaaaaaaaaaaaaaaaaaaaaaaaaaaaaaaa"

/-- First C3 counterexample payload: sets `tabId` to `longTabId`. -/
def payloadC3a : MetaPayload :=
  ⟨"s", false, "", "", none, longTabId, "", none, "", "", "", "", none, none, none⟩

/-- Second C3 counterexample payload: same session, `tabId` unspecified. -/
def payloadC3b : MetaPayload := emptyPayload "s"

/-! ## Helper lemmas -/

theorem insertSorted_perm (le : α → α → Bool) (x : α) (l : List α) :
    (insertSorted le x l).Perm (x :: l) := by
  induction l with
  | nil => simp [insertSorted]
  | cons y ys ih =>
    simp only [insertSorted]
    split
    · exact List.Perm.refl _
    · exact ((ih.cons y).trans (List.Perm.swap x y ys))

theorem stableSort_perm (le : α → α → Bool) (l : List α) :
    (stableSort le l).Perm l := by
  induction l with
  | nil => simp [stableSort]
  | cons x xs ih => exact (insertSorted_perm le x (stableSort le xs)).trans (ih.cons x)

theorem mem_insertSorted (le : α → α → Bool) (x y : α) (l : List α) :
    y ∈ insertSorted le x l ↔ y = x ∨ y ∈ l := by
  have h := (insertSorted_perm le x l).mem_iff (a := y)
  simpa using h

theorem pairwise_insertSorted (le : α → α → Bool)
    (htrans : ∀ a b c, le a b = true → le b c = true → le a c = true)
    (htot : ∀ a b, le a b = true ∨ le b a = true) (x : α) (l : List α)
    (h : l.Pairwise (fun a b => le a b = true)) :
    (insertSorted le x l).Pairwise (fun a b => le a b = true) := by
  induction l with
  | nil => simp [insertSorted]
  | cons y ys ih =>
    rcases List.pairwise_cons.mp h with ⟨hy, hys⟩
    simp only [insertSorted]
    split
    · rename_i hxy
      refine List.pairwise_cons.mpr ⟨?_, h⟩
      intro z hz
      rcases List.mem_cons.mp hz with rfl | hz
      · exact hxy
      · exact htrans x y z hxy (hy z hz)
    · rename_i hxy
      have hyx : le y x = true := by
        rcases htot x y with h1 | h2
        · exact absurd h1 hxy
        · exact h2
      refine List.pairwise_cons.mpr ⟨?_, ih hys⟩
      intro z hz
      rcases (mem_insertSorted le x z ys).mp hz with rfl | hz
      · exact hyx
      · exact hy z hz

theorem pairwise_stableSort (le : α → α → Bool)
    (htrans : ∀ a b c, le a b = true → le b c = true → le a c = true)
    (htot : ∀ a b, le a b = true ∨ le b a = true) (l : List α) :
    (stableSort le l).Pairwise (fun a b => le a b = true) := by
  induction l with
  | nil => simp [stableSort]
  | cons x xs ih => exact pairwise_insertSorted le htrans htot x (stableSort le xs) ih

theorem charListLe_total : ∀ as bs : List Char,
    charListLe as bs = true ∨ charListLe bs as = true := by
  intro as
  induction as with
  | nil => intro bs; left; cases bs <;> simp [charListLe]
  | cons a as ih =>
    intro bs
    cases bs with
    | nil => right; simp [charListLe]
    | cons b bs =>
      by_cases h1 : a.toNat < b.toNat
      · left; simp [charListLe, h1]
      · by_cases h2 : b.toNat < a.toNat
        · right; simp [charListLe, h2]
        · rcases ih bs with h | h
          · left; simp [charListLe, h1, h2, h]
          · right; simp [charListLe, h1, h2, h]

theorem strLe_total (a b : String) : strLe a b = true ∨ strLe b a = true :=
  charListLe_total a.data b.data

theorem tsDescLe_total (a b : Record) : tsDescLe a b = true ∨ tsDescLe b a = true := by
  rcases strLe_total a.ts b.ts with h | h
  · right; exact h
  · left; exact h

theorem mem_setInsert (l : List String) (x y : String) :
    y ∈ setInsert l x ↔ y ∈ l ∨ y = x := by
  unfold setInsert
  split
  · rename_i h
    constructor
    · intro hy; exact Or.inl hy
    · intro hy; rcases hy with hy | rfl
      · exact hy
      · exact h
  · simp

theorem nodup_setInsert (l : List String) (x : String) (h : l.Nodup) :
    (setInsert l x).Nodup := by
  unfold setInsert
  split
  · exact h
  · rename_i hx
    simpa [List.nodup_append] using ⟨h, hx⟩

theorem mem_foldl_setInsert (l : List String) (x : String) :
    ∀ acc : List String, x ∈ l.foldl setInsert acc ↔ x ∈ acc ∨ x ∈ l := by
  induction l with
  | nil => intro acc; simp
  | cons y ys ih =>
    intro acc
    simp only [List.foldl_cons, ih, mem_setInsert, List.mem_cons]
    tauto

theorem mem_setDedup (l : List String) (x : String) : x ∈ setDedup l ↔ x ∈ l := by
  unfold setDedup
  simpa using mem_foldl_setInsert l x []

theorem nodup_setDedup (l : List String) : (setDedup l).Nodup := by
  unfold setDedup
  suffices h : ∀ (acc : List String), acc.Nodup → (l.foldl setInsert acc).Nodup by
    exact h [] List.nodup_nil
  induction l with
  | nil => intro acc h; simpa using h
  | cons y ys ih =>
    intro acc h
    exact ih _ (nodup_setInsert acc y h)

theorem bucketFind_mem {m : List (String × Bucket)} {k : String} {b : Bucket}
    (h : bucketFind m k = some b) : (k, b) ∈ m := by
  induction m with
  | nil => simp [bucketFind] at h
  | cons e rest ih =>
    obtain ⟨k', b'⟩ := e
    simp only [bucketFind] at h
    split at h
    · rename_i heq
      cases h
      subst heq
      exact List.mem_cons_self _ _
    · exact List.mem_cons_of_mem _ (ih h)

theorem mem_intersectSets (sets : List Bucket) (x : String) :
    x ∈ intersectSets sets ↔ sets ≠ [] ∧ ∀ S ∈ sets, x ∈ S := by
  have hperm := stableSort_perm (fun a b => decide (a.length ≤ b.length)) sets
  unfold intersectSets
  cases hcons : stableSort (fun a b => decide (a.length ≤ b.length)) sets with
  | nil =>
    rw [hcons] at hperm
    have hs : sets = [] := List.Perm.eq_nil hperm.symm
    simp [hs]
  | cons seed rest =>
    rw [hcons] at hperm
    have hsets : ∀ S, S ∈ sets ↔ S ∈ seed :: rest := fun S => hperm.mem_iff.symm
    have hne : sets ≠ [] := by
      intro h
      subst h
      simp [stableSort] at hcons
    simp only [List.mem_filter, mem_setDedup, List.all_eq_true, decide_eq_true_eq]
    constructor
    · rintro ⟨hx, hall⟩
      refine ⟨hne, ?_⟩
      intro S hS
      rcases List.mem_cons.mp ((hsets S).mp hS) with rfl | h
      · exact hx
      · exact hall S h
    · rintro ⟨_, hall⟩
      have hseed : x ∈ seed := hall seed ((hsets seed).mpr (List.mem_cons_self _ _))
      exact ⟨hseed, fun S hS => hall S ((hsets S).mpr (List.mem_cons_of_mem _ hS))⟩

theorem nodup_intersectSets (sets : List Bucket) : (intersectSets sets).Nodup := by
  unfold intersectSets
  split
  · exact List.nodup_nil
  · exact (nodup_setDedup _).filter _

theorem charListLe_trans : ∀ as bs cs : List Char, charListLe as bs = true →
    charListLe bs cs = true → charListLe as cs = true := by
  intro as
  induction as with
  | nil => intro bs cs _ _; simp [charListLe]
  | cons a as ih =>
    intro bs cs h1 h2
    cases bs with
    | nil => simp [charListLe] at h1
    | cons b bs =>
      cases cs with
      | nil => simp [charListLe] at h2
      | cons c cs =>
        simp only [charListLe] at h1 h2 ⊢
        split_ifs at h1 h2 ⊢ <;> try rfl
        all_goals try omega
        all_goals exact ih bs cs h1 h2

theorem strLe_trans {a b c : String} (h1 : strLe a b = true) (h2 : strLe b c = true) :
    strLe a c = true :=
  charListLe_trans a.data b.data c.data h1 h2

theorem tsDescLe_trans (a b c : Record) (h1 : tsDescLe a b = true)
    (h2 : tsDescLe b c = true) : tsDescLe a c = true :=
  strLe_trans h2 h1

theorem flatMap_perm_of_subset {α β : Type} [DecidableEq α] (m : α → List β)
    {A B : List α} (hA : A.Nodup) (hB : B.Nodup) (hsub : A ⊆ B)
    (hnil : ∀ p ∈ B, p ∉ A → m p = []) : (A.flatMap m).Perm (B.flatMap m) := by
  obtain ⟨A', hA'A, hA'B⟩ := hA.subperm hsub
  obtain ⟨C, hBC⟩ := hA'B.exists_perm_append
  have hCnil : C.flatMap m = [] := by
    rw [List.flatMap_eq_nil_iff]
    intro q hq
    have hqB : q ∈ B := hBC.mem_iff.mpr (List.mem_append_right _ hq)
    have hnd : (A' ++ C).Nodup := hBC.nodup_iff.mp hB
    have hqA' : q ∉ A' := by
      intro hqA'
      exact (List.disjoint_of_nodup_append hnd) hqA' hq
    have hqA : q ∉ A := fun h => hqA' (hA'A.mem_iff.mpr h)
    exact hnil q hqB hqA
  have h1 : (A.flatMap m).Perm (A'.flatMap m) := (hA'A.flatMap_right m).symm
  have h2 : A'.flatMap m = (A' ++ C).flatMap m := by
    rw [List.flatMap_append, hCnil, List.append_nil]
  have h3 : ((A' ++ C).flatMap m).Perm (B.flatMap m) := (hBC.flatMap_right m).symm
  exact (h2 ▸ h1).trans h3

theorem existsFile_eq_false {fs : FS} (h : fs.rootExists = false ∨ fs.days = [])
    (p : String) : existsFile fs p = false := by
  rcases h with h | h <;> simp [existsFile, h]

theorem resolve_eq_empty_of_no_files {o : StoreOptions} {fs : FS} {st : StoreState}
    (h : fs.rootExists = false ∨ fs.days = []) (sid : String) :
    resolveArchiveFileBySessionId o fs st sid = "" := by
  unfold resolveArchiveFileBySessionId
  split
  · rfl
  · split
    · rfl
    · split
      · rfl
      · simp [existsFile_eq_false h]

theorem collectDayDirectories_eq_nil {fs : FS}
    (h : fs.rootExists = false ∨ fs.days = []) (now days : Int) :
    collectDayDirectories fs now days = [] := by
  rcases h with h | h
  · simp [collectDayDirectories, h]
  · cases hr : fs.rootExists <;> simp [collectDayDirectories, h, hr, stableSort]

theorem listArchiveFilesByDays_nil (fs : FS) : listArchiveFilesByDays fs [] = [] := by
  cases hr : fs.rootExists <;> simp [listArchiveFilesByDays, hr]

theorem collectFiles_nil {o : StoreOptions} {fs : FS} {now : Int} {st : StoreState}
    {qn : QueryNorm} (h : fs.rootExists = false ∨ fs.days = []) :
    (collectFilesForQuery o fs now st qn).files = [] := by
  unfold collectFilesForQuery
  have hcond : ¬(qn.sessionId ≠ "" ∧
      resolveArchiveFileBySessionId o fs st qn.sessionId ≠ "") := by
    rintro ⟨_, hr2⟩
    exact hr2 (resolve_eq_empty_of_no_files h _)
  have hic : indexedCandidates o fs now st qn = [] := by
    unfold indexedCandidates
    simp [existsFile_eq_false h, List.filter_eq_nil_iff]
  rw [if_neg hcond]
  split
  · simp [collectDayDirectories_eq_nil h, listArchiveFilesByDays_nil]
  · simp [hic, collectDayDirectories_eq_nil h, listArchiveFilesByDays_nil]

/-! ## Claim theorems -/

/-- C10: when the payload's `sessionId` sanitizes to the empty string,
`upsertSessionMeta` returns `false` and changes neither the persisted
metadata index document nor the in-memory metadata cache. -/
theorem c10_empty_session_upsert_noop (o : StoreOptions) (nowIso : String)
    (st : StoreState) (p : MetaPayload) (h : sanitizeLine p.sessionId 120 = "") :
    (upsertSessionMeta o nowIso st p).1 = false ∧
    (upsertSessionMeta o nowIso st p).2.meta.fileDoc = st.meta.fileDoc ∧
    (upsertSessionMeta o nowIso st p).2.meta.cacheDoc = st.meta.cacheDoc := by
  simp [upsertSessionMeta, h]

/-- Witness for C10 at a whitespace-only session id. -/
theorem c10_witness :
    sanitizeLine (emptyPayload "   ").sessionId 120 = "" ∧
    (upsertSessionMeta optsW "t" initialStoreState (emptyPayload "   ")).1 = false ∧
    (upsertSessionMeta optsW "t" initialStoreState (emptyPayload "   ")).2.meta.fileDoc
      = initialStoreState.meta.fileDoc ∧
    (upsertSessionMeta optsW "t" initialStoreState (emptyPayload "   ")).2.meta.cacheDoc
      = initialStoreState.meta.cacheDoc := by
  refine ⟨by decide, ?_⟩
  have h := c10_empty_session_upsert_noop optsW "t" initialStoreState
    (emptyPayload "   ") (by decide)
  exact h

/-- C6: under the default configuration, `query` input normalization clamps
`days` to an integer in `[1, 90]` (default 14 when missing or non-numeric)
and `limit` to an integer in `[1, 200]` (default 40); out-of-range values are
clamped, never rejected.  (`query` is a total function of the model, so no
input can make it throw.) -/
theorem c6_clamp_query_params (o : StoreOptions) (q : QueryInput)
    (h1 : o.maxQueryDays = none) (h2 : o.defaultQueryDays = none)
    (h3 : o.maxQueryLimit = none) (h4 : o.defaultQueryLimit = none) :
    (1 ≤ (normalizeQueryOptions o q).days ∧ (normalizeQueryOptions o q).days ≤ 90) ∧
    (q.days = none → (normalizeQueryOptions o q).days = 14) ∧
    (∀ n, q.days = some n → (normalizeQueryOptions o q).days = min 90 (max 1 n)) ∧
    (1 ≤ (normalizeQueryOptions o q).limit ∧ (normalizeQueryOptions o q).limit ≤ 200) ∧
    (q.limit = none → (normalizeQueryOptions o q).limit = 40) ∧
    (∀ n, q.limit = some n → (normalizeQueryOptions o q).limit = min 200 (max 1 n)) := by
  have hd : cfgMaxQueryDays o = 90 := by simp [cfgMaxQueryDays, h1, clampInteger]
  have hdd : cfgDefaultQueryDays o = 14 := by
    simp [cfgDefaultQueryDays, h2, clampInteger]
  have hl : cfgMaxQueryLimit o = 200 := by simp [cfgMaxQueryLimit, h3, clampInteger]
  have hll : cfgDefaultQueryLimit o = 40 := by
    simp [cfgDefaultQueryLimit, h4, clampInteger]
  refine ⟨?_, ?_, ?_, ?_, ?_, ?_⟩
  · cases hq : q.days with
    | none => simp [normalizeQueryOptions, hq, clampInteger, hd, hdd]
    | some n =>
      simp only [normalizeQueryOptions, hq, clampInteger, hd, hdd]
      constructor
      · exact le_min (by norm_num) (le_max_left 1 n)
      · exact min_le_left 90 _
  · intro hq; simp [normalizeQueryOptions, hq, clampInteger, hd, hdd]
  · intro n hq; simp [normalizeQueryOptions, hq, clampInteger, hd, hdd]
  · cases hq : q.limit with
    | none => simp [normalizeQueryOptions, hq, clampInteger, hl, hll]
    | some n =>
      simp only [normalizeQueryOptions, hq, clampInteger, hl, hll]
      constructor
      · exact le_min (by norm_num) (le_max_left 1 n)
      · exact min_le_left 200 _
  · intro hq; simp [normalizeQueryOptions, hq, clampInteger, hl, hll]
  · intro n hq; simp [normalizeQueryOptions, hq, clampInteger, hl, hll]

/-- Witness for C6: a non-numeric `days` defaults to 14, an out-of-range
`limit` is clamped to 200. -/
theorem c6_witness :
    optsW.maxQueryDays = none ∧ optsW.defaultQueryDays = none ∧
    optsW.maxQueryLimit = none ∧ optsW.defaultQueryLimit = none ∧
    (normalizeQueryOptions optsW ⟨none, some 1000, "", "", "", "", "", ""⟩).days = 14 ∧
    (normalizeQueryOptions optsW ⟨none, some 1000, "", "", "", "", "", ""⟩).limit
      = min 200 (max 1 1000) := by
  have h := c6_clamp_query_params optsW ⟨none, some 1000, "", "", "", "", "", ""⟩
    rfl rfl rfl rfl
  exact ⟨rfl, rfl, rfl, rfl, h.2.1 rfl, h.2.2.2.2.2 1000 rfl⟩

/-- C7: querying with no resolvable root, a nonexistent root directory, or an
empty root returns no records and total 0 without throwing, and the stats
block still carries the query mode and the elapsed-time field (always `0` in
this timeless model). -/
theorem c7_empty_archive_query (o : StoreOptions) (fs : FS) (now : Int)
    (st : StoreState) (q : QueryInput)
    (h : o.hasRoot = false ∨ fs.rootExists = false ∨ fs.days = []) :
    (query o fs now st q).1.records = [] ∧
    (query o fs now st q).1.total = 0 ∧
    (query o fs now st q).1.stats.queryMode = (normalizeQueryOptions o q).queryMode ∧
    (query o fs now st q).1.stats.elapsedMs = 0 := by
  by_cases hr : o.hasRoot
  · have h2 : fs.rootExists = false ∨ fs.days = [] := by
      rcases h with h | h | h
      · rw [hr] at h; cases h
      · exact Or.inl h
      · exact Or.inr h
    have hm : queryMatched o fs now st (normalizeQueryOptions o q) = [] := by
      unfold queryMatched
      rw [if_neg (by simp [hr]), collectFiles_nil h2]
      rfl
    simp [query, hr, hm, stableSort]
  · have hr' : o.hasRoot = false := by simpa using hr
    simp [query, hr']

/-- Adjacent-pair consequence of `Pairwise`, phrased with `getD`. -/
theorem pairwise_getD_adjacent {α : Type} {R : α → α → Prop} {l : List α}
    (h : l.Pairwise R) (d : α) (i : Nat) (hi : i + 1 < l.length) :
    R (l.getD i d) (l.getD (i + 1) d) := by
  have h1 : i < l.length := Nat.lt_of_succ_lt hi
  rw [List.getD_eq_getElem l d h1, List.getD_eq_getElem l d hi]
  have := List.pairwise_iff_get.mp h ⟨i, h1⟩ ⟨i + 1, hi⟩ (Nat.lt_succ_self i)
  simpa using this

/-- The records a query returns are sorted by `ts` descending. -/
theorem query_records_pairwise (o : StoreOptions) (fs : FS) (now : Int)
    (st : StoreState) (q : QueryInput) :
    ((query o fs now st q).1.records).Pairwise (fun a b => tsDescLe a b = true) := by
  by_cases hr : o.hasRoot = false
  · simp [query, hr]
  · simp only [query, if_neg hr]
    exact List.Pairwise.sublist (List.take_sublist _ _)
      (pairwise_stableSort tsDescLe tsDescLe_trans tsDescLe_total _)

/-- Witness for C7 at a nonexistent root directory. -/
theorem c7_witness :
    ((⟨false, []⟩ : FS).rootExists = false ∨ True) ∧
    (query optsW ⟨false, []⟩ nowW initialStoreState qTabW).1.records = [] ∧
    (query optsW ⟨false, []⟩ nowW initialStoreState qTabW).1.total = 0 ∧
    (query optsW ⟨false, []⟩ nowW initialStoreState qTabW).1.stats.queryMode
      = (normalizeQueryOptions optsW qTabW).queryMode ∧
    (query optsW ⟨false, []⟩ nowW initialStoreState qTabW).1.stats.elapsedMs = 0 := by
  have h := c7_empty_archive_query optsW ⟨false, []⟩ nowW initialStoreState qTabW
    (Or.inr (Or.inl rfl))
  exact ⟨Or.inl rfl, h⟩

/-- C4: every query result returns `min total limit` records, reports as
`total` the full filtered match count before truncation, and lists the
records sorted by `ts` descending (adjacent pairs non-increasing). -/
theorem c4_query_pagination_and_sort (o : StoreOptions) (fs : FS) (now : Int)
    (st : StoreState) (q : QueryInput) :
    (query o fs now st q).1.records.length
      = min (query o fs now st q).1.total (normalizeQueryOptions o q).limit.toNat ∧
    (query o fs now st q).1.total
      = (queryMatched o fs now st (normalizeQueryOptions o q)).length ∧
    ∀ i, i + 1 < (query o fs now st q).1.records.length →
      strLe ((query o fs now st q).1.records.getD (i + 1) defaultRecord).ts
        ((query o fs now st q).1.records.getD i defaultRecord).ts = true := by
  refine ⟨?_, ?_, ?_⟩
  · by_cases hr : o.hasRoot = false
    · simp [query, hr]
    · simp only [query, if_neg hr]
      rw [List.length_take,
        (stableSort_perm tsDescLe (queryMatched o fs now st (normalizeQueryOptions o q))).length_eq,
        Nat.min_comm]
  · by_cases hr : o.hasRoot = false
    · simp [query, hr, queryMatched]
    · simp [query, if_neg hr]
  · intro i hi
    exact pairwise_getD_adjacent (query_records_pairwise o fs now st q) defaultRecord i hi

/-- Witness for C4 on a two-record result. -/
theorem c4_witness :
    (query optsW fsCex nowW initialStoreState qTabLegW).1.records.length
      = min (query optsW fsCex nowW initialStoreState qTabLegW).1.total
        (normalizeQueryOptions optsW qTabLegW).limit.toNat ∧
    (query optsW fsCex nowW initialStoreState qTabLegW).1.total
      = (queryMatched optsW fsCex nowW initialStoreState
          (normalizeQueryOptions optsW qTabLegW)).length ∧
    strLe ((query optsW fsCex nowW initialStoreState qTabLegW).1.records.getD 1
        defaultRecord).ts
      ((query optsW fsCex nowW initialStoreState qTabLegW).1.records.getD 0
        defaultRecord).ts = true := by
  have h := c4_query_pagination_and_sort optsW fsCex nowW initialStoreState qTabLegW
  exact ⟨h.1, h.2.1, h.2.2 0 (by decide)⟩

/-- C8: `summarizeInput` returns the underlying query result untouched and a
timeline equal to the newline-joined `[ts] status summary analysis` lines of
the at most 24 most recent matched records, oldest first (the formatted slice
is ascending in `ts`); in the model it is defined from `query` alone and
performs no file access of its own. -/
theorem c8_summarize_timeline (o : StoreOptions) (fs : FS) (now : Int)
    (st : StoreState) (q : QueryInput) :
    (summarizeInput o fs now st q).1.result = (query o fs now st q).1 ∧
    (summarizeInput o fs now st q).1.stats = (query o fs now st q).1.stats ∧
    (summarizeInput o fs now st q).1.timeline
      = String.intercalate "\n"
          ((((query o fs now st q).1.records.take 24).reverse).map timelineLine) ∧
    (((query o fs now st q).1.records.take 24).reverse).length ≤ 24 ∧
    ∀ i, i + 1 < (((query o fs now st q).1.records.take 24).reverse).length →
      strLe ((((query o fs now st q).1.records.take 24).reverse).getD i defaultRecord).ts
        ((((query o fs now st q).1.records.take 24).reverse).getD (i + 1)
          defaultRecord).ts = true := by
  refine ⟨rfl, rfl, rfl, ?_, ?_⟩
  · rw [List.length_reverse, List.length_take]
    exact Nat.min_le_left _ _
  · intro i hi
    have hdesc := query_records_pairwise o fs now st q
    have htake : (((query o fs now st q).1.records.take 24)).Pairwise
        (fun a b => tsDescLe a b = true) :=
      List.Pairwise.sublist (List.take_sublist _ _) hdesc
    have hrev : ((((query o fs now st q).1.records.take 24)).reverse).Pairwise
        (fun a b => tsDescLe b a = true) :=
      List.pairwise_reverse.mpr htake
    exact pairwise_getD_adjacent hrev defaultRecord i hi

/-- Membership in `getCandidateFiles` in terms of the `sets` the source
builds. -/
theorem mem_getCandidateFiles (idx : MemoryIndex) (filters : CandidateFilters)
    (x : String) :
    x ∈ getCandidateFiles idx filters ↔
      candidateSets idx filters ≠ [] ∧ ∀ S ∈ candidateSets idx filters, x ∈ S := by
  unfold getCandidateFiles
  split
  · rename_i h
    simp [h]
  · exact mem_intersectSets _ x

/-- Under the hypothesis that every supplied dimension has a non-empty file
set, the `sets` the source builds coincide with the spec's per-dimension
sets. -/
theorem candidateSets_eq_suppliedSets (idx : MemoryIndex)
    (filters : CandidateFilters)
    (hne : ∀ S ∈ c5SuppliedSets idx filters, S ≠ []) :
    candidateSets idx filters = c5SuppliedSets idx filters := by
  unfold c5SuppliedSets at hne
  unfold candidateSets c5SuppliedSets
  have hdim : ∀ (m : List (String × Bucket)) (key : String),
      (∀ S ∈ (if jsTrim key ≠ "" then [(bucketFind m (jsTrim key)).getD []] else
        ([] : List Bucket)), S ≠ []) →
      dimSet m key = (if jsTrim key ≠ "" then [(bucketFind m (jsTrim key)).getD []]
        else []) := by
    intro m key hk
    unfold dimSet
    by_cases h : jsTrim key ≠ ""
    · simp only [if_pos h]
      cases hb : bucketFind m (jsTrim key) with
      | none =>
        exfalso
        have := hk [] (by simp [h, hb])
        exact this rfl
      | some b =>
        have hbne : b ≠ [] := by
          have := hk b (by simp [h, hb])
          exact this
        simp [hbne]
    · simp [h]
  have h1 := hdim idx.bySessionId filters.sessionId
    (fun S hS => hne S (by simp only [List.mem_append]; exact Or.inl (Or.inl (Or.inl hS))))
  have h2 := hdim idx.byTabId filters.tabId
    (fun S hS => hne S (by simp only [List.mem_append]; exact Or.inl (Or.inl (Or.inr hS))))
  have h3 := hdim idx.byEventType filters.eventType
    (fun S hS => hne S (by simp only [List.mem_append]; exact Or.inl (Or.inr hS)))
  rw [h1, h2, h3]
  by_cases hd : filters.dayStamps ≠ []
  · have hu : unionBuckets idx.byDayStamp filters.dayStamps ≠ [] := by
      apply hne
      refine List.mem_append_right _ ?_
      rw [if_pos hd]
      exact List.mem_singleton.mpr rfl
    simp [hd, hu]
  · simp [hd]

/-- C5 (amended): `getCandidateFiles` returns the intersection of the
per-dimension file sets of the supplied dimensions (day-stamp buckets unioned
first) provided every supplied dimension's set is non-empty; a supplied
dimension whose set is empty is skipped instead of forcing an empty
intersection (see the counterexample), and the result is empty when no
dimension is supplied. -/
theorem c5_candidate_intersection_amended (idx : MemoryIndex)
    (filters : CandidateFilters)
    (hne : ∀ S ∈ c5SuppliedSets idx filters, S ≠ []) :
    (∀ x, x ∈ getCandidateFiles idx filters ↔ c5SpecMember idx filters x) ∧
    (jsTrim filters.sessionId = "" → jsTrim filters.tabId = "" →
      jsTrim filters.eventType = "" → filters.dayStamps = [] →
      getCandidateFiles idx filters = []) := by
  constructor
  · intro x
    rw [mem_getCandidateFiles, candidateSets_eq_suppliedSets idx filters hne]
    exact Iff.rfl
  · intro hs ht he hd
    have hcs : candidateSets idx filters = [] := by
      unfold candidateSets dimSet
      simp [hs, ht, he, hd]
    unfold getCandidateFiles
    simp [hcs]

/-- Counterexample for C5 as stated: `sessionId` is supplied but has no
indexed file set, so the spec's intersection is empty, yet the code skips the
empty dimension and returns the tab bucket. -/
theorem c5_counterexample :
    "f" ∈ getCandidateFiles idxC5 filtersC5 ∧ ¬ c5SpecMember idxC5 filtersC5 "f" := by
  constructor
  · decide
  · intro h
    have h2 := h.2 [] (by decide)
    exact absurd h2 (by decide)

/-- Witness for C5 on filters whose supplied dimensions all have non-empty
buckets. -/
theorem c5_witness :
    (∀ S ∈ c5SuppliedSets idxW5 filtersW5, S ≠ []) ∧
    ("f" ∈ getCandidateFiles idxW5 filtersW5 ↔ c5SpecMember idxW5 filtersW5 "f") := by
  refine ⟨by decide, ?_⟩
  exact (c5_candidate_intersection_amended idxW5 filtersW5 (by decide)).1 "f"

/-- Every file listed from existing day directories exists. -/
theorem exists_of_mem_listArchiveFilesByDays {fs : FS} {ds : List String} {p : String}
    (h : p ∈ listArchiveFilesByDays fs ds) : existsFile fs p = true := by
  unfold listArchiveFilesByDays at h
  by_cases hr : fs.rootExists
  · rw [if_pos hr] at h
    obtain ⟨day, hday, hp⟩ := List.mem_flatMap.mp h
    cases hf : fs.days.find? (fun d => d.day == day) with
    | none => rw [hf] at hp; cases hp
    | some d =>
      rw [hf] at hp
      obtain ⟨f, hfmem, hfp⟩ := List.mem_map.mp hp
      have hdmem : d ∈ fs.days := List.mem_of_find?_eq_some hf
      have hdday : d.day = day := by
        have := List.find?_some hf
        exact eq_of_beq this
      have hffiles : f ∈ d.files := (List.mem_filter.mp hfmem).1
      unfold existsFile
      rw [hr, Bool.true_and, List.any_eq_true]
      refine ⟨d, hdmem, ?_⟩
      rw [List.any_eq_true]
      refine ⟨f, hffiles, ?_⟩
      rw [hdday, hfp]
      exact beq_self_eq_true p
  · rw [if_neg hr] at h
    cases h

/-- A non-empty result of the metadata short-circuit exists on disk. -/
theorem exists_of_resolve_ne {o : StoreOptions} {fs : FS} {st : StoreState}
    {sid : String} (h : resolveArchiveFileBySessionId o fs st sid ≠ "") :
    existsFile fs (resolveArchiveFileBySessionId o fs st sid) = true := by
  by_cases h0 : o.hasRoot = false ∨ sid = ""
  · exfalso
    apply h
    unfold resolveArchiveFileBySessionId
    rw [if_pos h0]
  · cases hf : findSession st.meta.fileDoc.sessions sid with
    | none =>
      exfalso
      apply h
      unfold resolveArchiveFileBySessionId
      rw [if_neg h0, hf]
    | some m =>
      by_cases hp : m.archivePath = ""
      · exfalso
        apply h
        unfold resolveArchiveFileBySessionId
        rw [if_neg h0, hf]
        simp [hp]
      · by_cases hex : existsFile fs m.archivePath = true
        · unfold resolveArchiveFileBySessionId
          rw [if_neg h0, hf]
          simp [hp, hex]
        · exfalso
          apply h
          unfold resolveArchiveFileBySessionId
          rw [if_neg h0, hf]
          simp [hp, hex]

/-- C9: the query engine never resolves a candidate file that is missing on
disk — the metadata short-circuit returns no file when the recorded
`archivePath` does not exist (so the query falls through to day-directory
enumeration), and every file `collectFilesForQuery` returns exists at
resolution time. -/
theorem c9_candidate_files_exist (o : StoreOptions) (fs : FS) (now : Int)
    (st : StoreState) (qn : QueryNorm) :
    (∀ sid m, findSession st.meta.fileDoc.sessions sid = some m →
      existsFile fs m.archivePath = false →
      resolveArchiveFileBySessionId o fs st sid = "") ∧
    (∀ p ∈ (collectFilesForQuery o fs now st qn).files, existsFile fs p = true) := by
  constructor
  · intro sid m hfind hex
    unfold resolveArchiveFileBySessionId
    split
    · rfl
    · rw [hfind]
      simp only
      split
      · rfl
      · rw [hex]
        simp
  · intro p hp
    unfold collectFilesForQuery at hp
    split at hp
    · rename_i hcond
      simp only [List.mem_singleton] at hp
      subst hp
      exact exists_of_resolve_ne hcond.2
    · split at hp
      · exact exists_of_mem_listArchiveFilesByDays hp
      · split at hp
        · exact (List.mem_filter.mp hp).2
        · exact exists_of_mem_listArchiveFilesByDays hp

/-- Witness for C9 on the stale-index store: both the missing-file resolve
clause (vacuous lookup here) and the existence of every collected candidate,
checked on a concrete collected file. -/
theorem c9_witness :
    ("2026-10-11/a.jsonl" ∈ (collectFilesForQuery optsW fsW2 nowW stW2
        (normalizeQueryOptions optsW qNeedleAuto)).files →
      existsFile fsW2 "2026-10-11/a.jsonl" = true) ∧
    ("2026-10-11/a.jsonl" ∈ (collectFilesForQuery optsW fsW2 nowW stW2
        (normalizeQueryOptions optsW qNeedleAuto)).files) := by
  constructor
  · intro hmem
    exact (c9_candidate_files_exist optsW fsW2 nowW stW2
      (normalizeQueryOptions optsW qNeedleAuto)).2 "2026-10-11/a.jsonl" hmem
  · decide

/-- An `a || b || ''` chain with `a` empty evaluates to `b`. -/
theorem firstNonempty_left_empty (b : String) : firstNonempty "" b "" = b := by
  by_cases hb : b = ""
  · simp [firstNonempty, hb]
  · simp [firstNonempty, hb]

/-- Lookup after an in-place-or-append update finds the new entry. -/
theorem findSession_setSession (l : List (String × SessionMeta)) (k : String)
    (m : SessionMeta) : findSession (setSession l k m) k = some m := by
  induction l with
  | nil => simp [setSession, findSession]
  | cons e rest ih =>
    obtain ⟨k', m'⟩ := e
    by_cases h : k' = k
    · simp [setSession, findSession, h]
    · simp [setSession, findSession, h, ih]

/-- C3 (amended): for every `upsertSessionMeta` call on a session whose id is
non-empty after sanitization (root configured), the stored entry is the merge
of the payload over the previous entry, where: `eventCount` grows by exactly
one when `incrementEventCount` is true and zero otherwise; every field that
the payload leaves unspecified is the previous value re-sanitized — equal to
the stored value except that a previous value whose length-limit truncation
left trailing whitespace has that whitespace stripped (see the
counterexample); `startedAt` keeps the previous value (re-sanitized) unless
the payload supplies one that sanitizes non-empty; and `lastAt` is
overwritten whenever the payload supplies a value that sanitizes non-empty. -/
theorem c3_upsert_merge_amended (o : StoreOptions) (nowIso : String)
    (st : StoreState) (p : MetaPayload) (hroot : o.hasRoot = true)
    (hsid : sanitizeLine p.sessionId 120 ≠ "") :
    ((upsertSessionMeta o nowIso st p).1 = true ∧
      findSession (upsertSessionMeta o nowIso st p).2.meta.fileDoc.sessions
          (sanitizeLine p.sessionId 120)
        = some (mergeSessionMeta nowIso (prevMeta st (sanitizeLine p.sessionId 120)) p
            (sanitizeLine p.sessionId 120))) ∧
    (∀ existing : SessionMeta,
      (mergeSessionMeta nowIso existing p (sanitizeLine p.sessionId 120)).eventCount
        = existing.eventCount + (if p.incrementEventCount then 1 else 0) ∧
      (sanitizeLine p.tabId 80 = "" →
        (mergeSessionMeta nowIso existing p (sanitizeLine p.sessionId 120)).tabId
          = sanitizeLine existing.tabId 80) ∧
      (sanitizeLine p.cwd 640 = "" →
        (mergeSessionMeta nowIso existing p (sanitizeLine p.sessionId 120)).cwd
          = sanitizeLine existing.cwd 640) ∧
      (sanitizeLine p.cli 40 = "" →
        (mergeSessionMeta nowIso existing p (sanitizeLine p.sessionId 120)).cli
          = sanitizeLine existing.cli 40) ∧
      (sanitizeLine p.provider 40 = "" →
        (mergeSessionMeta nowIso existing p (sanitizeLine p.sessionId 120)).provider
          = sanitizeLine existing.provider 40) ∧
      (sanitizeLine p.model 80 = "" →
        (mergeSessionMeta nowIso existing p (sanitizeLine p.sessionId 120)).model
          = sanitizeLine existing.model 80) ∧
      (sanitizeLine p.archivePath 360 = "" →
        (mergeSessionMeta nowIso existing p (sanitizeLine p.sessionId 120)).archivePath
          = sanitizeLine existing.archivePath 360) ∧
      (p.lastSummary = none →
        (mergeSessionMeta nowIso existing p (sanitizeLine p.sessionId 120)).lastSummary
          = sanitizeLine existing.lastSummary 180) ∧
      (p.lastAnalysis = none →
        (mergeSessionMeta nowIso existing p (sanitizeLine p.sessionId 120)).lastAnalysis
          = sanitizeLine existing.lastAnalysis 280) ∧
      (p.lastStatus = none →
        (mergeSessionMeta nowIso existing p (sanitizeLine p.sessionId 120)).lastStatus
          = sanitizeLine existing.lastStatus 40) ∧
      (p.endedAt = none →
        (mergeSessionMeta nowIso existing p (sanitizeLine p.sessionId 120)).endedAt
          = existing.endedAt) ∧
      (p.isAiSession = none →
        (mergeSessionMeta nowIso existing p (sanitizeLine p.sessionId 120)).isAiSession
          = existing.isAiSession) ∧
      (sanitizeLine p.startedAt 40 ≠ "" →
        (mergeSessionMeta nowIso existing p (sanitizeLine p.sessionId 120)).startedAt
          = sanitizeLine p.startedAt 40) ∧
      (sanitizeLine p.startedAt 40 = "" → sanitizeLine existing.startedAt 40 ≠ "" →
        (mergeSessionMeta nowIso existing p (sanitizeLine p.sessionId 120)).startedAt
          = sanitizeLine existing.startedAt 40) ∧
      (sanitizeLine p.lastAt 40 ≠ "" →
        (mergeSessionMeta nowIso existing p (sanitizeLine p.sessionId 120)).lastAt
          = sanitizeLine p.lastAt 40)) := by
  constructor
  · constructor
    · simp [upsertSessionMeta, hsid, hroot]
    · simp only [upsertSessionMeta, if_neg hsid, hroot, if_true]
      exact findSession_setSession _ _ _
  · intro existing
    refine ⟨rfl, ?_, ?_, ?_, ?_, ?_, ?_, ?_, ?_, ?_, ?_, ?_, ?_, ?_, ?_⟩
    · intro h; simp [mergeSessionMeta, h, firstNonempty_left_empty]
    · intro h; simp [mergeSessionMeta, h, firstNonempty_left_empty]
    · intro h; simp [mergeSessionMeta, h, firstNonempty_left_empty]
    · intro h; simp [mergeSessionMeta, h, firstNonempty_left_empty]
    · intro h; simp [mergeSessionMeta, h, firstNonempty_left_empty]
    · intro h; simp [mergeSessionMeta, h, firstNonempty_left_empty]
    · intro h; simp [mergeSessionMeta, h]
    · intro h; simp [mergeSessionMeta, h]
    · intro h; simp [mergeSessionMeta, h]
    · intro h; simp [mergeSessionMeta, h]
    · intro h; simp [mergeSessionMeta, h]
    · intro h; simp [mergeSessionMeta, firstNonempty, h]
    · intro h1 h2; simp [mergeSessionMeta, firstNonempty, h1, h2]
    · intro h; simp [mergeSessionMeta, firstNonempty, h]

/-- Counterexample for C3 as stated: the first call sets `tabId` to an
81-character value that is truncated to 80 characters ending in a space; the
second call leaves `tabId` unspecified, yet the stored value changes (the
trailing space is stripped by re-sanitization), so an unspecified field does
not retain the value the previous call stored. -/
theorem c3_counterexample :
    (prevMeta (upsertSessionMeta optsW "t1" initialStoreState payloadC3a).2 "s").tabId
      = storedTabId ∧
    (prevMeta (upsertSessionMeta optsW "t2"
        (upsertSessionMeta optsW "t1" initialStoreState payloadC3a).2 payloadC3b).2
      "s").tabId = resanitizedTabId ∧
    storedTabId ≠ resanitizedTabId := by
  refine ⟨by decide, by decide, by decide⟩

/-- Witness for C3 on a concrete two-call sequence. -/
theorem c3_witness :
    optsW.hasRoot = true ∧ sanitizeLine (emptyPayload "s").sessionId 120 ≠ "" ∧
    ((upsertSessionMeta optsW "t" initialStoreState (emptyPayload "s")).1 = true ∧
      findSession (upsertSessionMeta optsW "t" initialStoreState
          (emptyPayload "s")).2.meta.fileDoc.sessions
          (sanitizeLine (emptyPayload "s").sessionId 120)
        = some (mergeSessionMeta "t"
            (prevMeta initialStoreState (sanitizeLine (emptyPayload "s").sessionId 120))
            (emptyPayload "s") (sanitizeLine (emptyPayload "s").sessionId 120))) ∧
    (mergeSessionMeta "t" defaultSessionMeta (emptyPayload "s")
        (sanitizeLine (emptyPayload "s").sessionId 120)).eventCount
      = defaultSessionMeta.eventCount + (if (emptyPayload "s").incrementEventCount
          then 1 else 0) := by
  have h := c3_upsert_merge_amended optsW "t" initialStoreState (emptyPayload "s")
    rfl (by decide)
  exact ⟨rfl, by decide, h.1, (h.2 defaultSessionMeta).1⟩

theorem append_slash_inj : ∀ (a b x y : List Char), '/' ∉ a → '/' ∉ b →
    a ++ '/' :: x = b ++ '/' :: y → a = b ∧ x = y := by
  intro a
  induction a with
  | nil =>
    intro b x y _ hb h
    cases b with
    | nil =>
      simp only [List.nil_append] at h
      injection h with _ h2
      exact ⟨rfl, h2⟩
    | cons c bs =>
      simp only [List.nil_append, List.cons_append] at h
      injection h with h1 _
      subst h1
      exact absurd (List.mem_cons_self _ _) hb
  | cons c as ih =>
    intro b x y ha hb h
    cases b with
    | nil =>
      simp only [List.nil_append, List.cons_append] at h
      injection h with h1 _
      subst h1
      exact absurd (List.mem_cons_self _ _) ha
    | cons c' bs =>
      simp only [List.cons_append] at h
      injection h with h1 h2
      obtain ⟨hab, hxy⟩ := ih bs x y (fun hm => ha (List.mem_cons_of_mem _ hm))
        (fun hm => hb (List.mem_cons_of_mem _ hm)) h2
      subst h1
      rw [hab]
      exact ⟨rfl, hxy⟩

theorem joinPath_data (d n : String) : (joinPath d n).data = d.data ++ '/' :: n.data := by
  unfold joinPath
  rw [String.data_append, String.data_append, List.append_assoc]
  rfl

theorem noSlash_not_mem {s : String} (h : noSlash s = true) : '/' ∉ s.data := by
  simpa [noSlash] using h

theorem joinPath_inj {d1 n1 d2 n2 : String} (h1 : noSlash d1 = true)
    (h2 : noSlash d2 = true) (h : joinPath d1 n1 = joinPath d2 n2) :
    d1 = d2 ∧ n1 = n2 := by
  have hd : (joinPath d1 n1).data = (joinPath d2 n2).data := by rw [h]
  rw [joinPath_data, joinPath_data] at hd
  obtain ⟨ha, hb⟩ := append_slash_inj _ _ _ _ (noSlash_not_mem h1) (noSlash_not_mem h2) hd
  exact ⟨String.ext ha, String.ext hb⟩

theorem joinPath_right_inj {d n1 n2 : String} (h : joinPath d n1 = joinPath d n2) :
    n1 = n2 := by
  have hd := congrArg String.data h
  rw [joinPath_data, joinPath_data] at hd
  have h2 := List.append_cancel_left hd
  injection h2 with _ h3
  exact String.ext h3

theorem dirEntries_cons (d : DayDir) (ds : List DayDir) :
    dirEntries (d :: ds)
      = d.files.map (fun f => (joinPath d.day f.name, f.records)) ++ dirEntries ds := by
  simp [dirEntries]

theorem dirEntries_append (l1 l2 : List DayDir) :
    dirEntries (l1 ++ l2) = dirEntries l1 ++ dirEntries l2 := by
  simp [dirEntries]

theorem find?_fileEntries_eq_none {day name : String} {files : List ArchiveFile}
    (hne : ∀ f ∈ files, f.name ≠ name) :
    (files.map (fun f => (joinPath day f.name, f.records))).find?
      (fun e => e.1 == joinPath day name) = none := by
  rw [List.find?_eq_none]
  intro e he
  obtain ⟨f, hf, rfl⟩ := List.mem_map.mp he
  simp only [beq_iff_eq]
  intro heq
  exact hne f hf (joinPath_right_inj heq)

theorem find?_fileEntries_ne_day {dday day name : String} {files : List ArchiveFile}
    (hne : dday ≠ day) (h1 : noSlash dday = true) (h2 : noSlash day = true) :
    (files.map (fun f => (joinPath dday f.name, f.records))).find?
      (fun e => e.1 == joinPath day name) = none := by
  rw [List.find?_eq_none]
  intro e he
  obtain ⟨f, hf, rfl⟩ := List.mem_map.mp he
  simp only [beq_iff_eq]
  intro heq
  exact hne (joinPath_inj h1 h2 heq).1

theorem find?_dirEntries_eq_none {day name : String} {days : List DayDir}
    (hnd : ∀ d ∈ days, d.day ≠ day) (hnos : ∀ d ∈ days, noSlash d.day = true)
    (hday : noSlash day = true) :
    (dirEntries days).find? (fun e => e.1 == joinPath day name) = none := by
  rw [List.find?_eq_none]
  intro e he
  unfold dirEntries at he
  obtain ⟨d, hd, hed⟩ := List.mem_flatMap.mp he
  obtain ⟨f, hf, rfl⟩ := List.mem_map.mp hed
  simp only [beq_iff_eq]
  intro heq
  exact hnd d hd (joinPath_inj (hnos d hd) hday heq).1

theorem find?_mapUpdate (day name : String) (r : Record) :
    ∀ files : List ArchiveFile, files.any (fun f => f.name == name) = true →
    ((files.map (fun f => if f.name == name then ⟨f.name, f.records ++ [r]⟩ else f)).map
        (fun f => (joinPath day f.name, f.records))).find?
        (fun e => e.1 == joinPath day name)
      = some (joinPath day name,
          (match (files.map (fun f => (joinPath day f.name, f.records))).find?
              (fun e => e.1 == joinPath day name) with
            | some e => e.2
            | none => []) ++ [r]) := by
  intro files
  induction files with
  | nil => intro h; simp at h
  | cons f rest ih =>
    intro hany
    cases hf : f.name == name with
    | true =>
      have heq : f.name = name := eq_of_beq hf
      simp [List.find?_cons, hf, heq]
    | false =>
      have hne : f.name ≠ name := by
        intro h
        rw [h] at hf
        simp at hf
      have hkey : (joinPath day f.name == joinPath day name) = false := by
        rw [beq_eq_false_iff_ne]
        intro h
        exact hne (joinPath_right_inj h)
      have hanyrest : rest.any (fun f => f.name == name) = true := by
        simp only [List.any_cons, hf, Bool.false_or] at hany
        exact hany
      simp only [List.map_cons, List.find?_cons, hf, Bool.false_eq_true, if_false, hkey]
      exact ih hanyrest

theorem find?_updateFiles_entries (files : List ArchiveFile) (day name : String)
    (r : Record) :
    ((updateFiles files name r).map (fun f => (joinPath day f.name, f.records))).find?
        (fun e => e.1 == joinPath day name)
      = some (joinPath day name,
          (match (files.map (fun f => (joinPath day f.name, f.records))).find?
              (fun e => e.1 == joinPath day name) with
            | some e => e.2
            | none => []) ++ [r]) := by
  unfold updateFiles
  cases hany : files.any (fun f => f.name == name) with
  | true =>
    rw [if_pos rfl]
    exact find?_mapUpdate day name r files hany
  | false =>
    rw [if_neg (by simp)]
    have hne : ∀ f ∈ files, f.name ≠ name := by
      intro f hf h
      have h2 : files.any (fun f => f.name == name) = true :=
        List.any_eq_true.mpr ⟨f, hf, by simp [h]⟩
      rw [hany] at h2
      cases h2
    rw [List.map_append, List.find?_append, find?_fileEntries_eq_none hne]
    simp [List.find?]

theorem find?_updateDays_entries (day name : String) (r : Record) :
    ∀ days : List DayDir, (days.map (fun d => d.day)).Nodup →
    (∀ d ∈ days, noSlash d.day = true) → noSlash day = true →
    days.any (fun d => d.day == day) = true →
    (dirEntries (updateDays days day name r)).find? (fun e => e.1 == joinPath day name)
      = some (joinPath day name,
          (match (dirEntries days).find? (fun e => e.1 == joinPath day name) with
            | some e => e.2
            | none => []) ++ [r]) := by
  intro days
  induction days with
  | nil => intro _ _ _ h; simp at h
  | cons d rest ih =>
    intro hnd hnos hday hany
    cases hd : d.day == day with
    | true =>
      have heq : d.day = day := eq_of_beq hd
      have hrestne : ∀ d' ∈ rest, d'.day ≠ day := by
        intro d' hd' h
        have hmem : day ∈ rest.map (fun d => d.day) := by
          rw [← h]
          exact List.mem_map_of_mem _ hd'
        rw [List.map_cons] at hnd
        have := (List.nodup_cons.mp hnd).1
        rw [heq] at this
        exact this hmem
      have hmap : updateDays (d :: rest) day name r
          = ⟨d.day, updateFiles d.files name r⟩ :: rest := by
        unfold updateDays
        rw [List.map_cons, if_pos hd]
        congr 1
        have : ∀ d' ∈ rest,
            (if d'.day == day then
              (⟨d'.day, updateFiles d'.files name r⟩ : DayDir) else d') = d' := by
          intro d' hd'
          rw [if_neg]
          simp only [beq_iff_eq]
          exact hrestne d' hd'
        rw [List.map_congr_left this, List.map_id']
      rw [hmap, dirEntries_cons, dirEntries_cons, List.find?_append, List.find?_append]
      have hrest : (dirEntries rest).find? (fun e => e.1 == joinPath day name) = none := by
        exact find?_dirEntries_eq_none hrestne
          (fun d' hd' => hnos d' (List.mem_cons_of_mem _ hd')) hday
      rw [hrest]
      simp only [heq]
      rw [find?_updateFiles_entries d.files day name r]
      cases hfind : (d.files.map (fun f => (joinPath day f.name, f.records))).find?
          (fun e => e.1 == joinPath day name) with
      | some e => simp [Option.or]
      | none => simp [Option.or]
    | false =>
      have hne : d.day ≠ day := by
        intro h
        rw [h] at hd
        simp at hd
      have hanyrest : rest.any (fun d => d.day == day) = true := by
        simp only [List.any_cons, hd, Bool.false_or] at hany
        exact hany
      have hmap : updateDays (d :: rest) day name r = d :: updateDays rest day name r := by
        unfold updateDays
        rw [List.map_cons, if_neg (by simp only [beq_iff_eq]; exact hne)]
      have hskip : (d.files.map (fun f => (joinPath d.day f.name, f.records))).find?
          (fun e => e.1 == joinPath day name) = none :=
        find?_fileEntries_ne_day hne (hnos d (List.mem_cons_self _ _)) hday
      rw [hmap, dirEntries_cons, dirEntries_cons, List.find?_append, List.find?_append,
        hskip]
      simp only [Option.none_or]
      exact ih (by rw [List.map_cons] at hnd; exact (List.nodup_cons.mp hnd).2)
        (fun d' hd' => hnos d' (List.mem_cons_of_mem _ hd')) hday hanyrest

/-- A durable append adds exactly one record at the end of the target file
and leaves its previous content in place. -/
theorem readJsonLines_appendRecordToFile (fs : FS) (day name : String) (r : Record)
    (hWF : fsWF fs) (hday : noSlash day = true) :
    readJsonLines (appendRecordToFile fs day name r) (joinPath day name)
      = readJsonLines fs (joinPath day name) ++ [r] := by
  obtain ⟨hroot, hnd, _, hnos, _⟩ := hWF
  unfold appendRecordToFile
  cases hany : fs.days.any (fun d => d.day == day) with
  | true =>
    rw [if_pos rfl]
    have hrootT : fs.rootExists = true := by
      rcases hroot with h | h
      · exact h
      · rw [h] at hany
        simp at hany
    unfold readJsonLines
    rw [hrootT]
    simp only [if_true]
    rw [find?_updateDays_entries day name r fs.days hnd hnos hday hany]
  | false =>
    rw [if_neg (by simp)]
    have hne : ∀ d ∈ fs.days, d.day ≠ day := by
      intro d hd h
      have h2 : fs.days.any (fun d => d.day == day) = true :=
        List.any_eq_true.mpr ⟨d, hd, by simp [h]⟩
      rw [hany] at h2
      cases h2
    have hnone : (dirEntries fs.days).find? (fun e => e.1 == joinPath day name) = none :=
      find?_dirEntries_eq_none hne hnos hday
    unfold readJsonLines
    simp only [if_true]
    rw [dirEntries_append, List.find?_append, hnone]
    cases hrootE : fs.rootExists with
    | true => simp [dirEntries, List.find?]
    | false => simp [dirEntries, List.find?]

theorem mem_updateFiles_name {files : List ArchiveFile} {name : String} {r : Record}
    {f : ArchiveFile} (hf : f ∈ updateFiles files name r) :
    f.name ∈ files.map (fun g => g.name) ∨ f.name = name := by
  unfold updateFiles at hf
  split at hf
  · obtain ⟨g, hg, rfl⟩ := List.mem_map.mp hf
    left
    have hn : (if g.name == name then (⟨g.name, g.records ++ [r]⟩ : ArchiveFile)
        else g).name = g.name := by
      split <;> rfl
    rw [hn]
    exact List.mem_map_of_mem _ hg
  · rcases List.mem_append.mp hf with h | h
    · exact Or.inl (List.mem_map_of_mem _ h)
    · rcases List.mem_singleton.mp h with rfl
      exact Or.inr rfl

theorem updateFiles_map_name (files : List ArchiveFile) (name : String) (r : Record)
    (hany : files.any (fun f => f.name == name) = true) :
    (updateFiles files name r).map (fun f => f.name) = files.map (fun f => f.name) := by
  unfold updateFiles
  rw [if_pos hany, List.map_map]
  apply List.map_congr_left
  intro f _
  simp only [Function.comp_apply]
  split <;> rfl

theorem updateDays_map_day (days : List DayDir) (day name : String) (r : Record) :
    (updateDays days day name r).map (fun d => d.day) = days.map (fun d => d.day) := by
  unfold updateDays
  rw [List.map_map]
  apply List.map_congr_left
  intro d _
  simp only [Function.comp_apply]
  split <;> rfl

/-- The append write path preserves the file-system well-formedness. -/
theorem fsWF_appendRecordToFile (fs : FS) (day name : String) (r : Record)
    (hWF : fsWF fs) (hday : noSlash day = true) (hname : noSlash name = true) :
    fsWF (appendRecordToFile fs day name r) := by
  obtain ⟨_, hnd, hfn, hnos, hfns⟩ := hWF
  unfold appendRecordToFile
  cases hany : fs.days.any (fun d => d.day == day) with
  | true =>
    rw [if_pos rfl]
    refine ⟨Or.inl rfl, ?_, ?_, ?_, ?_⟩
    · rw [updateDays_map_day]
      exact hnd
    · intro d hd
      unfold updateDays at hd
      obtain ⟨d0, hd0, rfl⟩ := List.mem_map.mp hd
      by_cases h : d0.day == day
      · rw [if_pos h]
        simp only
        cases hanyf : d0.files.any (fun f => f.name == name) with
        | true =>
          rw [updateFiles_map_name d0.files name r hanyf]
          exact hfn d0 hd0
        | false =>
          unfold updateFiles
          rw [if_neg (by simp [hanyf])]
          rw [List.map_append]
          simp only [List.map_cons, List.map_nil]
          rw [List.nodup_append]
          refine ⟨hfn d0 hd0, List.nodup_singleton _, ?_⟩
          intro a ha hb
          have hab : a = name := List.mem_singleton.mp hb
          rw [hab] at ha
          obtain ⟨g, hg, hgname⟩ := List.mem_map.mp ha
          have h2 : d0.files.any (fun f => f.name == name) = true :=
            List.any_eq_true.mpr ⟨g, hg, by simp [hgname]⟩
          rw [hanyf] at h2
          cases h2
      · rw [if_neg h]
        exact hfn d0 hd0
    · intro d hd
      unfold updateDays at hd
      obtain ⟨d0, hd0, rfl⟩ := List.mem_map.mp hd
      by_cases h : d0.day == day
      · rw [if_pos h]
        exact hnos d0 hd0
      · rw [if_neg h]
        exact hnos d0 hd0
    · intro d hd f hf
      unfold updateDays at hd
      obtain ⟨d0, hd0, rfl⟩ := List.mem_map.mp hd
      by_cases h : d0.day == day
      · rw [if_pos h] at hf
        simp only at hf
        rcases mem_updateFiles_name hf with hm | hm
        · obtain ⟨g, hg, hgname⟩ := List.mem_map.mp hm
          rw [← hgname]
          exact hfns d0 hd0 g hg
        · rw [hm]
          exact hname
      · rw [if_neg h] at hf
        exact hfns d0 hd0 f hf
  | false =>
    rw [if_neg (by simp)]
    have hdne : day ∉ fs.days.map (fun d => d.day) := by
      intro hmem
      obtain ⟨d, hd, hdd⟩ := List.mem_map.mp hmem
      have h2 : fs.days.any (fun d => d.day == day) = true :=
        List.any_eq_true.mpr ⟨d, hd, by simp [hdd]⟩
      rw [hany] at h2
      cases h2
    refine ⟨Or.inl rfl, ?_, ?_, ?_, ?_⟩
    · rw [List.map_append]
      simp only [List.map_cons, List.map_nil]
      rw [List.nodup_append]
      refine ⟨hnd, List.nodup_singleton _, ?_⟩
      intro a ha hb
      have hab : a = day := List.mem_singleton.mp hb
      rw [hab] at ha
      exact hdne ha
    · intro d hd
      rcases List.mem_append.mp hd with h | h
      · exact hfn d h
      · rcases List.mem_singleton.mp h with rfl
        simp
    · intro d hd
      rcases List.mem_append.mp hd with h | h
      · exact hnos d h
      · rcases List.mem_singleton.mp h with rfl
        exact hday
    · intro d hd f hf
      rcases List.mem_append.mp hd with h | h
      · exact hfns d h f hf
      · rcases List.mem_singleton.mp h with rfl
        rcases List.mem_singleton.mp hf with rfl
        exact hname

/-- C2 (amended): the durable one-line append of the write path
(`appendHeartbeatArchiveRecord` in `src/main.js`) appends exactly one record
to the target file per call and leaves every previously appended record
present and unmodified under any number of subsequent appends; the store
facade's `append(record, meta)` itself performs no file write at all — it
only updates the in-memory index and, through `meta.sessionMeta`, the
metadata index (see the counterexample). -/
theorem c2_append_write_path_amended (fs : FS) (day name : String)
    (hWF : fsWF fs) (hday : noSlash day = true) (hname : noSlash name = true) :
    (∀ rs : List Record,
      readJsonLines (rs.foldl (fun acc x => appendRecordToFile acc day name x) fs)
          (joinPath day name)
        = readJsonLines fs (joinPath day name) ++ rs) ∧
    (∀ (o : StoreOptions) (nowIso : String) (st : StoreState) (record : Record)
        (meta : AppendMeta), (storeAppend o nowIso fs st record meta).1 = fs) := by
  constructor
  · suffices h : ∀ (rs : List Record) (fs0 : FS), fsWF fs0 →
        readJsonLines (rs.foldl (fun acc x => appendRecordToFile acc day name x) fs0)
            (joinPath day name)
          = readJsonLines fs0 (joinPath day name) ++ rs by
      intro rs
      exact h rs fs hWF
    intro rs
    induction rs with
    | nil => intro fs0 _; simp
    | cons r rest ih =>
      intro fs0 hWF0
      simp only [List.foldl_cons]
      rw [ih (appendRecordToFile fs0 day name r)
          (fsWF_appendRecordToFile fs0 day name r hWF0 hday hname),
        readJsonLines_appendRecordToFile fs0 day name r hWF0 hday]
      simp
  · intro o nowIso st record meta
    obtain ⟨fp, sm⟩ := meta
    unfold storeAppend
    cases sm <;> rfl

/-- Counterexample for C2 as stated: the facade's `append` on an existing
empty file leaves the file empty — it does not append
`JSON.stringify(record)` plus a newline (the durable write happens in the
caller, before the facade is invoked). -/
theorem c2_counterexample :
    readJsonLines (storeAppend optsW "t" fsC2 initialStoreState recW1
        ⟨"2026-10-11/a.jsonl", none⟩).1 "2026-10-11/a.jsonl" = [] ∧
    ([] : List Record) ≠ [recW1] := by
  exact ⟨by decide, by decide⟩

/-- Witness for C2 on a concrete two-append run. -/
theorem c2_witness :
    fsWF fsC2 ∧ noSlash dayW = true ∧ noSlash "a.jsonl" = true ∧
    readJsonLines (([recW1, recW2]).foldl
        (fun acc x => appendRecordToFile acc dayW "a.jsonl" x) fsC2)
        (joinPath dayW "a.jsonl")
      = readJsonLines fsC2 (joinPath dayW "a.jsonl") ++ [recW1, recW2] ∧
    (storeAppend optsW "t" fsC2 initialStoreState recW1 ⟨"x", none⟩).1 = fsC2 := by
  have hwf : fsWF fsC2 := by decide
  have h := c2_append_write_path_amended fsC2 dayW "a.jsonl" hwf (by decide) (by decide)
  exact ⟨hwf, by decide, by decide, h.1 [recW1, recW2],
    h.2 optsW "t" initialStoreState recW1 ⟨"x", none⟩⟩

theorem bucketHasFile_addGo_mono {m : List (String × Bucket)} {k p : String}
    (key f : String) (h : bucketHasFile m k p) :
    bucketHasFile (addFileToBucketGo m key f) k p := by
  induction m with
  | nil =>
    obtain ⟨b, hb, _⟩ := h
    simp [bucketFind] at hb
  | cons e rest ih =>
    obtain ⟨k', b'⟩ := e
    obtain ⟨b, hb, hp⟩ := h
    unfold bucketFind at hb
    unfold addFileToBucketGo
    by_cases hk : k' = key
    · rw [if_pos hk]
      by_cases hkk : k' = k
      · rw [if_pos hkk] at hb
        cases hb
        refine ⟨(if f ∈ b' then b' else b' ++ [f]), ?_, ?_⟩
        · unfold bucketFind
          rw [if_pos hkk]
        · split
          · exact hp
          · exact List.mem_append_left _ hp
      · rw [if_neg hkk] at hb
        exact ⟨b, by simp [bucketFind, hkk, hb], hp⟩
    · rw [if_neg hk]
      by_cases hkk : k' = k
      · rw [if_pos hkk] at hb
        cases hb
        exact ⟨b', by simp [bucketFind, hkk], hp⟩
      · rw [if_neg hkk] at hb
        obtain ⟨b2, hb2, hp2⟩ := ih ⟨b, hb, hp⟩
        exact ⟨b2, by simp [bucketFind, hkk, hb2], hp2⟩

theorem bucketHasFile_addFileToBucket_mono {m : List (String × Bucket)} {k p : String}
    (key f : String) (h : bucketHasFile m k p) :
    bucketHasFile (addFileToBucket m key f) k p := by
  unfold addFileToBucket
  split
  · exact h
  · exact bucketHasFile_addGo_mono (jsTrim key) (jsTrim f) h

theorem bucketHasFile_addGo_self (m : List (String × Bucket)) (k f : String) :
    bucketHasFile (addFileToBucketGo m k f) k f := by
  induction m with
  | nil => exact ⟨[f], by simp [addFileToBucketGo, bucketFind], by simp⟩
  | cons e rest ih =>
    obtain ⟨k', b'⟩ := e
    unfold addFileToBucketGo
    by_cases hk : k' = k
    · rw [if_pos hk]
      refine ⟨(if f ∈ b' then b' else b' ++ [f]), ?_, ?_⟩
      · unfold bucketFind
        rw [if_pos hk]
      · split
        · assumption
        · exact List.mem_append_right _ (List.mem_singleton.mpr rfl)
    · rw [if_neg hk]
      obtain ⟨b2, hb2, hp2⟩ := ih
      exact ⟨b2, by simp [bucketFind, hk, hb2], hp2⟩

theorem bucketHasFile_addFileToBucket_self {key f : String}
    (m : List (String × Bucket)) (hk : jsTrim key ≠ "") (hf : jsTrim f ≠ "") :
    bucketHasFile (addFileToBucket m key f) (jsTrim key) (jsTrim f) := by
  unfold addFileToBucket
  rw [if_neg (by tauto)]
  exact bucketHasFile_addGo_self m (jsTrim key) (jsTrim f)

theorem idxHasRecord_addRecord_mono {idx : MemoryIndex} {r0 : Record} {p0 : String}
    (r : Record) (p : String) (h : idxHasRecord idx r0 p0) :
    idxHasRecord (addRecord idx r p) r0 p0 := by
  obtain ⟨h1, h2, h3, h4⟩ := h
  unfold addRecord
  split
  · exact ⟨h1, h2, h3, h4⟩
  · exact ⟨fun hk => bucketHasFile_addFileToBucket_mono _ _ (h1 hk),
      fun hk => bucketHasFile_addFileToBucket_mono _ _ (h2 hk),
      fun hk => bucketHasFile_addFileToBucket_mono _ _ (h3 hk),
      fun hk => bucketHasFile_addFileToBucket_mono _ _ (h4 hk)⟩

theorem idxHasRecord_addRecord_self (idx : MemoryIndex) (r : Record) {p : String}
    (hp : jsTrim p = p) (hp0 : p ≠ "") : idxHasRecord (addRecord idx r p) r p := by
  unfold addRecord
  rw [if_neg (by rw [hp]; exact hp0)]
  unfold idxHasRecord
  rw [hp]
  refine ⟨?_, ?_, ?_, ?_⟩
  · intro hk
    have h0 := bucketHasFile_addFileToBucket_self (f := p) idx.bySessionId hk
      (by rw [hp]; exact hp0)
    rwa [hp] at h0
  · intro hk
    have h0 := bucketHasFile_addFileToBucket_self (f := p) idx.byTabId hk
      (by rw [hp]; exact hp0)
    rwa [hp] at h0
  · intro hk
    have h0 := bucketHasFile_addFileToBucket_self (f := p) idx.byEventType hk
      (by rw [hp]; exact hp0)
    rwa [hp] at h0
  · intro hk
    have h0 := bucketHasFile_addFileToBucket_self (f := p) idx.byDayStamp hk
      (by rw [hp]; exact hp0)
    rwa [hp] at h0

theorem markDayLoaded_buckets (idx : MemoryIndex) (d : String) :
    (markDayLoaded idx d).bySessionId = idx.bySessionId ∧
    (markDayLoaded idx d).byTabId = idx.byTabId ∧
    (markDayLoaded idx d).byEventType = idx.byEventType ∧
    (markDayLoaded idx d).byDayStamp = idx.byDayStamp := by
  unfold markDayLoaded
  split <;> exact ⟨rfl, rfl, rfl, rfl⟩

theorem idxHasRecord_markDayLoaded {idx : MemoryIndex} {r : Record} {p : String}
    (d : String) (h : idxHasRecord idx r p) : idxHasRecord (markDayLoaded idx d) r p := by
  obtain ⟨e1, e2, e3, e4⟩ := markDayLoaded_buckets idx d
  obtain ⟨h1, h2, h3, h4⟩ := h
  exact ⟨fun hk => e1 ▸ h1 hk, fun hk => e2 ▸ h2 hk, fun hk => e3 ▸ h3 hk,
    fun hk => e4 ▸ h4 hk⟩

theorem idxHasRecord_foldRecords_mono {r0 : Record} {p0 : String} (p : String) :
    ∀ (rs : List Record) (idx : MemoryIndex), idxHasRecord idx r0 p0 →
      idxHasRecord (rs.foldl (fun idx r => addRecord idx r p) idx) r0 p0 := by
  intro rs
  induction rs with
  | nil => intro idx h; exact h
  | cons r rest ih =>
    intro idx h
    exact ih _ (idxHasRecord_addRecord_mono r p h)

theorem idxHasRecord_foldFiles_mono {fs : FS} {r0 : Record} {p0 : String} :
    ∀ (ps : List String) (idx : MemoryIndex), idxHasRecord idx r0 p0 →
      idxHasRecord (ps.foldl
        (fun idx p => (readJsonLines fs p).foldl (fun idx r => addRecord idx r p) idx)
        idx) r0 p0 := by
  intro ps
  induction ps with
  | nil => intro idx h; exact h
  | cons p rest ih =>
    intro idx h
    exact ih _ (idxHasRecord_foldRecords_mono p _ _ h)

theorem idxHasRecord_foldRecords_self {p : String} (hp : jsTrim p = p) (hp0 : p ≠ "") :
    ∀ (rs : List Record) (idx : MemoryIndex) (r : Record), r ∈ rs →
      idxHasRecord (rs.foldl (fun idx r => addRecord idx r p) idx) r p := by
  intro rs
  induction rs with
  | nil => intro idx r h; cases h
  | cons r1 rest ih =>
    intro idx r h
    rcases List.mem_cons.mp h with rfl | h
    · exact idxHasRecord_foldRecords_mono p rest _
        (idxHasRecord_addRecord_self idx r hp hp0)
    · exact ih _ r h

theorem loadDayIntoIdx_complete {fs : FS} {day : String}
    (hfix : ∀ p ∈ listArchiveFilesByDays fs [day], jsTrim p = p ∧ p ≠ "") :
    ∀ (idx : MemoryIndex), dayComplete fs (loadDayIntoIdx fs idx day) day := by
  unfold dayComplete loadDayIntoIdx
  suffices h : ∀ (ps : List String), (∀ p ∈ ps, jsTrim p = p ∧ p ≠ "") →
      ∀ (idx : MemoryIndex) (p : String), p ∈ ps → ∀ r ∈ readJsonLines fs p,
      idxHasRecord (ps.foldl
        (fun idx p => (readJsonLines fs p).foldl (fun idx r => addRecord idx r p) idx)
        idx) r p by
    intro idx p hp r hr
    exact h _ hfix idx p hp r hr
  intro ps
  induction ps with
  | nil => intro _ idx p hp; cases hp
  | cons p1 rest ih =>
    intro hfix2 idx p hp r hr
    rcases List.mem_cons.mp hp with rfl | hp
    · simp only [List.foldl_cons]
      exact idxHasRecord_foldFiles_mono rest _
        (idxHasRecord_foldRecords_self (hfix2 p (List.mem_cons_self _ _)).1
          (hfix2 p (List.mem_cons_self _ _)).2 _ idx r hr)
    · exact ih (fun q hq => hfix2 q (List.mem_cons_of_mem _ hq)) _ p hp r hr

theorem idxHasRecord_loadDay_mono {fs : FS} {r0 : Record} {p0 : String}
    (idx : MemoryIndex) (day : String) (h : idxHasRecord idx r0 p0) :
    idxHasRecord (loadDayIntoIdx fs idx day) r0 p0 :=
  idxHasRecord_foldFiles_mono _ _ h

theorem idxHasRecord_hydrateStep_mono {fs : FS} {r0 : Record} {p0 : String}
    (idx : MemoryIndex) (day : String) (h : idxHasRecord idx r0 p0) :
    idxHasRecord (hydrateStep fs idx day) r0 p0 := by
  unfold hydrateStep
  split
  · exact h
  · exact idxHasRecord_markDayLoaded day (idxHasRecord_loadDay_mono idx day h)

theorem dayComplete_hydrateStep_mono {fs : FS} {idx : MemoryIndex} {x : String}
    (day : String) (h : dayComplete fs idx x) :
    dayComplete fs (hydrateStep fs idx day) x := by
  intro p hp r hr
  exact idxHasRecord_hydrateStep_mono idx day (h p hp r hr)

theorem dayComplete_foldHydrate_mono {fs : FS} {x : String} :
    ∀ (todo : List String) (idx : MemoryIndex), dayComplete fs idx x →
      dayComplete fs (todo.foldl (hydrateStep fs) idx) x := by
  intro todo
  induction todo with
  | nil => intro idx h; exact h
  | cons d rest ih =>
    intro idx h
    exact ih _ (dayComplete_hydrateStep_mono d h)

theorem loadedDays_markDayLoaded (idx : MemoryIndex) (d : String) (x : String)
    (hx : x ∈ (markDayLoaded idx d).loadedDays) :
    x ∈ idx.loadedDays ∨ x = jsTrim d := by
  unfold markDayLoaded at hx
  split at hx
  · exact Or.inl hx
  · simp only at hx
    rcases List.mem_append.mp hx with h | h
    · exact Or.inl h
    · exact Or.inr (List.mem_singleton.mp h)

theorem loadedDays_loadDay (fs : FS) (idx : MemoryIndex) (day : String) :
    (loadDayIntoIdx fs idx day).loadedDays = idx.loadedDays := by
  unfold loadDayIntoIdx
  suffices h : ∀ (ps : List String) (idx : MemoryIndex),
      (ps.foldl
        (fun idx p => (readJsonLines fs p).foldl (fun idx r => addRecord idx r p) idx)
        idx).loadedDays = idx.loadedDays by
    exact h _ idx
  intro ps
  induction ps with
  | nil => intro idx; rfl
  | cons p rest ih =>
    intro idx
    rw [List.foldl_cons, ih]
    suffices h2 : ∀ (rs : List Record) (idx : MemoryIndex),
        (rs.foldl (fun idx r => addRecord idx r p) idx).loadedDays = idx.loadedDays by
      exact h2 _ idx
    intro rs
    induction rs with
    | nil => intro idx; rfl
    | cons r rest2 ih2 =>
      intro idx
      rw [List.foldl_cons, ih2]
      unfold addRecord
      split <;> rfl

theorem hydrateFold_complete (fs : FS) :
    ∀ (todo : List String) (idx : MemoryIndex),
      (∀ d ∈ todo, jsTrim d = d ∧ d ≠ "") →
      (∀ d ∈ todo, ∀ p ∈ listArchiveFilesByDays fs [d], jsTrim p = p ∧ p ≠ "") →
      (∀ x ∈ idx.loadedDays, dayComplete fs idx x) →
      (∀ x ∈ (todo.foldl (hydrateStep fs) idx).loadedDays,
        dayComplete fs (todo.foldl (hydrateStep fs) idx) x) ∧
      (∀ d ∈ todo, dayComplete fs (todo.foldl (hydrateStep fs) idx) d) := by
  intro todo
  induction todo with
  | nil =>
    intro idx _ _ hInv
    exact ⟨hInv, fun d hd => absurd hd (List.not_mem_nil d)⟩
  | cons d rest ih =>
    intro idx hdays hfiles hInv
    simp only [List.foldl_cons]
    have hdayfix := hdays d (List.mem_cons_self _ _)
    by_cases hskip : areDaysLoaded idx [d] = true
    · have hstep : hydrateStep fs idx d = idx := by
        unfold hydrateStep
        rw [if_pos hskip]
      have hdInLoaded : d ∈ idx.loadedDays := by
        unfold areDaysLoaded at hskip
        simp [hdayfix.1, hdayfix.2] at hskip
        exact hskip
      have hdc : dayComplete fs idx d := hInv d hdInLoaded
      rw [hstep]
      obtain ⟨hInv2, hrest⟩ := ih idx (fun x hx => hdays x (List.mem_cons_of_mem _ hx))
        (fun x hx => hfiles x (List.mem_cons_of_mem _ hx)) hInv
      refine ⟨hInv2, ?_⟩
      intro d2 hd2
      rcases List.mem_cons.mp hd2 with rfl | hd2
      · exact dayComplete_foldHydrate_mono rest idx hdc
      · exact hrest d2 hd2
    · have hstep : hydrateStep fs idx d = markDayLoaded (loadDayIntoIdx fs idx d) d := by
        unfold hydrateStep
        rw [if_neg hskip]
      have hdc1 : dayComplete fs (loadDayIntoIdx fs idx d) d :=
        loadDayIntoIdx_complete (hfiles d (List.mem_cons_self _ _)) idx
      have hdc2 : dayComplete fs (markDayLoaded (loadDayIntoIdx fs idx d) d) d := by
        intro p hp r hr
        exact idxHasRecord_markDayLoaded d (hdc1 p hp r hr)
      have hInv2 : ∀ x ∈ (markDayLoaded (loadDayIntoIdx fs idx d) d).loadedDays,
          dayComplete fs (markDayLoaded (loadDayIntoIdx fs idx d) d) x := by
        intro x hx
        rcases loadedDays_markDayLoaded _ _ _ hx with hx2 | hx2
        · rw [loadedDays_loadDay] at hx2
          intro p hp r hr
          exact idxHasRecord_markDayLoaded d
            (idxHasRecord_loadDay_mono idx d (hInv x hx2 p hp r hr))
        · rw [hx2, hdayfix.1]
          exact hdc2
      rw [hstep]
      obtain ⟨hInv3, hrest⟩ := ih (markDayLoaded (loadDayIntoIdx fs idx d) d)
        (fun x hx => hdays x (List.mem_cons_of_mem _ hx))
        (fun x hx => hfiles x (List.mem_cons_of_mem _ hx)) hInv2
      refine ⟨hInv3, ?_⟩
      intro d2 hd2
      rcases List.mem_cons.mp hd2 with rfl | hd2
      · exact dayComplete_foldHydrate_mono rest _ hdc2
      · exact hrest d2 hd2

theorem bucketsSub_addGo {L : List String} (f' : String) (hf : f' ∈ L) :
    ∀ (m : List (String × Bucket)) (k' : String), bucketsSub m L →
      bucketsSub (addFileToBucketGo m k' f') L := by
  intro m
  induction m with
  | nil =>
    intro k' _
    intro kb hkb x hx
    rcases List.mem_singleton.mp hkb with rfl
    rcases List.mem_singleton.mp hx with rfl
    exact hf
  | cons e rest ih =>
    intro k' hsub
    obtain ⟨k0, b0⟩ := e
    unfold addFileToBucketGo
    by_cases hk : k0 = k'
    · rw [if_pos hk]
      intro kb hkb x hx
      rcases List.mem_cons.mp hkb with rfl | hkb
      · simp only at hx
        split at hx
        · exact hsub (k0, b0) (List.mem_cons_self _ _) x hx
        · rcases List.mem_append.mp hx with h | h
          · exact hsub (k0, b0) (List.mem_cons_self _ _) x h
          · rcases List.mem_singleton.mp h with rfl
            exact hf
      · exact hsub kb (List.mem_cons_of_mem _ hkb) x hx
    · rw [if_neg hk]
      intro kb hkb x hx
      rcases List.mem_cons.mp hkb with rfl | hkb
      · exact hsub (k0, b0) (List.mem_cons_self _ _) x hx
      · exact ih k' (fun kb2 hkb2 => hsub kb2 (List.mem_cons_of_mem _ hkb2)) kb hkb x hx

theorem bucketsSub_addFileToBucket {m : List (String × Bucket)} {L : List String}
    (key f : String) (hsub : bucketsSub m L) (hf : jsTrim f ∈ L) :
    bucketsSub (addFileToBucket m key f) L := by
  unfold addFileToBucket
  split
  · exact hsub
  · exact bucketsSub_addGo (jsTrim f) hf m (jsTrim key) hsub

theorem idxSub_addRecord {idx : MemoryIndex} {L : List String} (r : Record)
    {p : String} (hsub : idxSub idx L) (hp : jsTrim p = p) (hpL : p ∈ L) :
    idxSub (addRecord idx r p) L := by
  obtain ⟨h1, h2, h3, h4⟩ := hsub
  unfold addRecord
  split
  · exact ⟨h1, h2, h3, h4⟩
  · refine ⟨?_, ?_, ?_, ?_⟩
    · exact bucketsSub_addFileToBucket _ _ h1 (by rw [hp, hp]; exact hpL)
    · exact bucketsSub_addFileToBucket _ _ h2 (by rw [hp, hp]; exact hpL)
    · exact bucketsSub_addFileToBucket _ _ h3 (by rw [hp, hp]; exact hpL)
    · exact bucketsSub_addFileToBucket _ _ h4 (by rw [hp, hp]; exact hpL)

theorem idxSub_markDayLoaded {idx : MemoryIndex} {L : List String} (d : String)
    (hsub : idxSub idx L) : idxSub (markDayLoaded idx d) L := by
  obtain ⟨e1, e2, e3, e4⟩ := markDayLoaded_buckets idx d
  obtain ⟨h1, h2, h3, h4⟩ := hsub
  exact ⟨e1 ▸ h1, e2 ▸ h2, e3 ▸ h3, e4 ▸ h4⟩

theorem idxSub_foldRecords {L : List String} {p : String} (hp : jsTrim p = p)
    (hpL : p ∈ L) : ∀ (rs : List Record) (idx : MemoryIndex), idxSub idx L →
      idxSub (rs.foldl (fun idx r => addRecord idx r p) idx) L := by
  intro rs
  induction rs with
  | nil => intro idx h; exact h
  | cons r rest ih =>
    intro idx h
    exact ih _ (idxSub_addRecord r h hp hpL)

theorem idxSub_foldFiles {fs : FS} {L : List String} :
    ∀ (ps : List String), (∀ p ∈ ps, jsTrim p = p ∧ p ∈ L) →
      ∀ (idx : MemoryIndex), idxSub idx L →
      idxSub (ps.foldl
        (fun idx p => (readJsonLines fs p).foldl (fun idx r => addRecord idx r p) idx)
        idx) L := by
  intro ps
  induction ps with
  | nil => intro _ idx h; exact h
  | cons p rest ih =>
    intro hps idx h
    exact ih (fun q hq => hps q (List.mem_cons_of_mem _ hq)) _
      (idxSub_foldRecords (hps p (List.mem_cons_self _ _)).1
        (hps p (List.mem_cons_self _ _)).2 _ idx h)

theorem idxSub_hydrateStep {fs : FS} {L : List String} {idx : MemoryIndex}
    (day : String) (hfiles : ∀ p ∈ listArchiveFilesByDays fs [day], jsTrim p = p ∧ p ∈ L)
    (hsub : idxSub idx L) : idxSub (hydrateStep fs idx day) L := by
  unfold hydrateStep
  split
  · exact hsub
  · exact idxSub_markDayLoaded day (idxSub_foldFiles _ hfiles idx hsub)

theorem idxSub_hydrate {fs : FS} {L : List String} :
    ∀ (todo : List String),
      (∀ d ∈ todo, ∀ p ∈ listArchiveFilesByDays fs [d], jsTrim p = p ∧ p ∈ L) →
      ∀ (idx : MemoryIndex), idxSub idx L →
      idxSub (todo.foldl (hydrateStep fs) idx) L := by
  intro todo
  induction todo with
  | nil => intro _ idx h; exact h
  | cons d rest ih =>
    intro hdays idx h
    exact ih (fun x hx => hdays x (List.mem_cons_of_mem _ hx)) _
      (idxSub_hydrateStep d (hdays d (List.mem_cons_self _ _)) h)

theorem idxSub_emptyIndex (L : List String) : idxSub emptyIndex L := by
  refine ⟨?_, ?_, ?_, ?_⟩ <;> intro kb hkb <;> cases hkb

theorem idxSub_hydrateIndexForDays {fs : FS} {L : List String} (ds : List String)
    (hdays : ∀ d ∈ ds, ∀ p ∈ listArchiveFilesByDays fs [d], jsTrim p = p ∧ p ∈ L) :
    idxSub (hydrateIndexForDays fs ds emptyIndex) L := by
  unfold hydrateIndexForDays
  split
  · exact idxSub_emptyIndex L
  · split
    · exact idxSub_emptyIndex L
    · exact idxSub_hydrate ds hdays emptyIndex (idxSub_emptyIndex L)

theorem mem_unionBuckets (m : List (String × Bucket)) (x : String) :
    ∀ keys : List String, x ∈ unionBuckets m keys ↔
      ∃ k ∈ keys, jsTrim k ≠ "" ∧ ∃ b, bucketFind m (jsTrim k) = some b ∧ x ∈ b := by
  suffices h : ∀ (keys : List String) (acc : List String),
      x ∈ keys.foldl
        (fun acc k =>
          if jsTrim k = "" then acc
          else
            match bucketFind m (jsTrim k) with
            | none => acc
            | some b => b.foldl setInsert acc)
        acc ↔
      x ∈ acc ∨ ∃ k ∈ keys, jsTrim k ≠ "" ∧ ∃ b, bucketFind m (jsTrim k) = some b ∧ x ∈ b by
    intro keys
    unfold unionBuckets
    rw [h keys []]
    simp
  intro keys
  induction keys with
  | nil => intro acc; simp
  | cons k rest ih =>
    intro acc
    rw [List.foldl_cons, ih]
    by_cases hk : jsTrim k = ""
    · rw [if_pos hk]
      constructor
      · rintro (h | ⟨k2, hk2, h2⟩)
        · exact Or.inl h
        · exact Or.inr ⟨k2, List.mem_cons_of_mem _ hk2, h2⟩
      · rintro (h | ⟨k2, hk2, hne, h2⟩)
        · exact Or.inl h
        · rcases List.mem_cons.mp hk2 with rfl | hk2
          · exact absurd hk hne
          · exact Or.inr ⟨k2, hk2, hne, h2⟩
    · rw [if_neg hk]
      cases hb : bucketFind m (jsTrim k) with
      | none =>
        constructor
        · rintro (h | ⟨k2, hk2, h2⟩)
          · exact Or.inl h
          · exact Or.inr ⟨k2, List.mem_cons_of_mem _ hk2, h2⟩
        · rintro (h | ⟨k2, hk2, hne, b, hb2, hx⟩)
          · exact Or.inl h
          · rcases List.mem_cons.mp hk2 with rfl | hk2
            · rw [hb] at hb2; cases hb2
            · exact Or.inr ⟨k2, hk2, hne, b, hb2, hx⟩
      | some b =>
        rw [mem_foldl_setInsert]
        constructor
        · rintro ((h | h) | ⟨k2, hk2, h2⟩)
          · exact Or.inl h
          · exact Or.inr ⟨k, List.mem_cons_self _ _, hk, b, hb, h⟩
          · exact Or.inr ⟨k2, List.mem_cons_of_mem _ hk2, h2⟩
        · rintro (h | ⟨k2, hk2, hne, b2, hb2, hx⟩)
          · exact Or.inl (Or.inl h)
          · rcases List.mem_cons.mp hk2 with rfl | hk2
            · rw [hb] at hb2
              cases hb2
              exact Or.inl (Or.inr hx)
            · exact Or.inr ⟨k2, hk2, hne, b2, hb2, hx⟩

theorem candidateSets_sub {idx : MemoryIndex} {L : List String}
    (filters : CandidateFilters) (hsub : idxSub idx L) :
    ∀ S ∈ candidateSets idx filters, ∀ x ∈ S, x ∈ L := by
  obtain ⟨h1, h2, h3, h4⟩ := hsub
  have hdim : ∀ (m : List (String × Bucket)) (key : String), bucketsSub m L →
      ∀ S ∈ dimSet m key, ∀ x ∈ S, x ∈ L := by
    intro m key hm S hS x hx
    unfold dimSet at hS
    split at hS
    · cases hfind : bucketFind m (jsTrim key) with
      | none => rw [hfind] at hS; cases hS
      | some b =>
        simp only [hfind] at hS
        by_cases hb : b ≠ []
        · rw [if_pos hb] at hS
          rcases List.mem_singleton.mp hS with rfl
          exact hm _ (bucketFind_mem hfind) x hx
        · rw [if_neg hb] at hS
          cases hS
    · cases hS
  intro S hS x hx
  unfold candidateSets at hS
  rcases List.mem_append.mp hS with hS | hS
  · rcases List.mem_append.mp hS with hS | hS
    · rcases List.mem_append.mp hS with hS | hS
      · exact hdim _ _ h1 S hS x hx
      · exact hdim _ _ h2 S hS x hx
    · exact hdim _ _ h3 S hS x hx
  · by_cases hd : filters.dayStamps ≠ []
    · rw [if_pos hd] at hS
      by_cases hu : unionBuckets idx.byDayStamp filters.dayStamps ≠ []
      · rw [if_pos hu] at hS
        rcases List.mem_singleton.mp hS with rfl
        obtain ⟨k, _, _, b, hb, hxb⟩ := (mem_unionBuckets _ x _).mp hx
        exact h4 _ (bucketFind_mem hb) x hxb
      · rw [if_neg hu] at hS
        cases hS
    · rw [if_neg hd] at hS
      cases hS

theorem getCandidateFiles_subset {idx : MemoryIndex} {L : List String}
    (filters : CandidateFilters) (hsub : idxSub idx L) :
    ∀ x ∈ getCandidateFiles idx filters, x ∈ L := by
  intro x hx
  obtain ⟨hne, hall⟩ := (mem_getCandidateFiles idx filters x).mp hx
  obtain ⟨S, hS⟩ := List.exists_mem_of_ne_nil _ hne
  exact candidateSets_sub filters hsub S hS x (hall S hS)

theorem nodup_getCandidateFiles (idx : MemoryIndex) (filters : CandidateFilters) :
    (getCandidateFiles idx filters).Nodup := by
  unfold getCandidateFiles
  split
  · exact List.nodup_nil
  · exact nodup_intersectSets _

/-- Witness for C8 on a two-record result. -/
theorem c8_witness :
    (summarizeInput optsW fsCex nowW initialStoreState qTabLegW).1.timeline
      = String.intercalate "\n"
          ((((query optsW fsCex nowW initialStoreState qTabLegW).1.records.take
            24).reverse).map timelineLine) ∧
    strLe ((((query optsW fsCex nowW initialStoreState qTabLegW).1.records.take
          24).reverse).getD 0 defaultRecord).ts
      ((((query optsW fsCex nowW initialStoreState qTabLegW).1.records.take
          24).reverse).getD 1 defaultRecord).ts = true := by
  have h := c8_summarize_timeline optsW fsCex nowW initialStoreState qTabLegW
  exact ⟨h.2.2.1, h.2.2.2.2 0 (by decide)⟩

theorem dropWhile_eq_self_of_all {p : Char → Bool} {l : List Char}
    (h : ∀ c ∈ l, p c = false) : l.dropWhile p = l := by
  cases l with
  | nil => rfl
  | cons c rest =>
    rw [List.dropWhile_cons, if_neg (by simp [h c (List.mem_cons_self c rest)])]

theorem jsTrim_eq_self_of_no_ws {s : String} (h : ∀ c ∈ s.data, jsIsSpace c = false) :
    jsTrim s = s := by
  unfold jsTrim
  rw [dropWhile_eq_self_of_all h,
    dropWhile_eq_self_of_all (fun c hc => h c (List.mem_reverse.mp hc)),
    List.reverse_reverse]

theorem jsIsSpace_false_of_isDigit {c : Char} (h : c.isDigit = true) :
    jsIsSpace c = false := by
  cases hs : jsIsSpace c
  · rfl
  · exfalso
    unfold jsIsSpace at hs
    simp only [Bool.or_eq_true, beq_iff_eq] at hs
    rcases hs with ((((rfl | rfl) | rfl) | rfl) | rfl) | rfl <;>
      exact absurd h (by decide)

theorem jsIsSpace_dash : jsIsSpace '-' = false := by decide

theorem isDayStamp_no_ws {s : String} (h : isDayStamp s = true) :
    ∀ c ∈ s.data, jsIsSpace c = false := by
  unfold isDayStamp at h
  split at h
  · rename_i y1 y2 y3 y4 h1 m1 m2 h2 d1 d2 heq
    simp only [Bool.and_eq_true, beq_iff_eq] at h
    obtain ⟨⟨⟨⟨⟨⟨⟨⟨⟨hy1, hy2⟩, hy3⟩, hy4⟩, hh1⟩, hm1⟩, hm2⟩, hh2⟩, hd1⟩, hd2⟩ := h
    intro c hc
    rw [heq] at hc
    simp only [List.mem_cons, List.not_mem_nil, or_false] at hc
    rcases hc with rfl | rfl | rfl | rfl | rfl | rfl | rfl | rfl | rfl | rfl
    · exact jsIsSpace_false_of_isDigit hy1
    · exact jsIsSpace_false_of_isDigit hy2
    · exact jsIsSpace_false_of_isDigit hy3
    · exact jsIsSpace_false_of_isDigit hy4
    · rw [hh1]; exact jsIsSpace_dash
    · exact jsIsSpace_false_of_isDigit hm1
    · exact jsIsSpace_false_of_isDigit hm2
    · rw [hh2]; exact jsIsSpace_dash
    · exact jsIsSpace_false_of_isDigit hd1
    · exact jsIsSpace_false_of_isDigit hd2
  · cases h

theorem isDayStamp_ne_empty {s : String} (h : isDayStamp s = true) : s ≠ "" := by
  intro he
  subst he
  exact absurd h (by decide)

theorem jsTrim_of_isDayStamp {s : String} (h : isDayStamp s = true) : jsTrim s = s :=
  jsTrim_eq_self_of_no_ws (isDayStamp_no_ws h)

theorem isDayStamp_of_mem_collectDayDirectories {fs : FS} {now : Int} {days : Int}
    {d : String} (h : d ∈ collectDayDirectories fs now days) : isDayStamp d = true := by
  unfold collectDayDirectories at h
  split at h
  · have h2 := (stableSort_perm _ _).mem_iff.mp h
    exact (List.mem_filter.mp (List.mem_filter.mp h2).1).2
  · cases h

theorem mem_listArchiveFilesByDays {fs : FS} {ds : List String} {p : String} :
    p ∈ listArchiveFilesByDays fs ds ↔ ∃ d ∈ ds, p ∈ listArchiveFilesByDays fs [d] := by
  unfold listArchiveFilesByDays
  cases hr : fs.rootExists
  · simp
  · rw [if_pos rfl, List.mem_flatMap]
    constructor
    · rintro ⟨d, hd, hp⟩
      refine ⟨d, hd, ?_⟩
      rw [if_pos rfl]
      simp only [List.flatMap_cons, List.flatMap_nil, List.append_nil]
      exact hp
    · rintro ⟨d, hd, hp⟩
      rw [if_pos rfl] at hp
      simp only [List.flatMap_cons, List.flatMap_nil, List.append_nil] at hp
      exact ⟨d, hd, hp⟩

theorem joinPath_ne_empty (day name : String) : joinPath day name ≠ "" := by
  intro h
  have h2 := congrArg String.data h
  unfold joinPath at h2
  rw [String.data_append, String.data_append] at h2
  simp at h2

theorem listArchiveFilesByDays_ne_empty {fs : FS} {ds : List String} :
    ∀ p ∈ listArchiveFilesByDays fs ds, p ≠ "" := by
  intro p hp
  unfold listArchiveFilesByDays at hp
  split at hp
  · obtain ⟨d, hd, hp2⟩ := List.mem_flatMap.mp hp
    cases hfind : fs.days.find? (fun x => x.day == d) with
    | none => simp [hfind] at hp2
    | some dd =>
      simp only [hfind] at hp2
      obtain ⟨f, hf, rfl⟩ := List.mem_map.mp hp2
      exact joinPath_ne_empty d f.name
  · cases hp

theorem areDaysLoaded_emptyIndex (l : List String) :
    areDaysLoaded emptyIndex l = false := by
  unfold areDaysLoaded
  cases hf : (l.map jsTrim).filter (fun d => d ≠ "") with
  | nil => rw [if_pos rfl]
  | cons a rest =>
    rw [if_neg (List.cons_ne_nil a rest)]
    simp [emptyIndex]

theorem unionBuckets_nil_map (keys : List String) : unionBuckets [] keys = [] := by
  rw [List.eq_nil_iff_forall_not_mem]
  intro x hx
  obtain ⟨k, _, _, b, hb, _⟩ := (mem_unionBuckets [] x keys).mp hx
  simp [bucketFind] at hb

theorem dimSet_nil_map (key : String) : dimSet [] key = [] := by
  unfold dimSet
  split
  · simp [bucketFind]
  · rfl

theorem getCandidateFiles_emptyIndex (f : CandidateFilters) :
    getCandidateFiles emptyIndex f = [] := by
  have hsets : candidateSets emptyIndex f = [] := by
    unfold candidateSets
    simp only [emptyIndex]
    rw [dimSet_nil_map, dimSet_nil_map, dimSet_nil_map, unionBuckets_nil_map]
    simp
  unfold getCandidateFiles
  rw [if_pos hsets]

theorem hydrateIndexForDays_empty_eq_fold {fs : FS} {ds : List String} (hds : ds ≠ []) :
    hydrateIndexForDays fs ds emptyIndex = ds.foldl (hydrateStep fs) emptyIndex := by
  unfold hydrateIndexForDays
  rw [if_neg hds, if_neg (by simp [areDaysLoaded_emptyIndex])]

theorem dimSet_mem_of_match {m : List (String × Bucket)} {qkey rkey p : String}
    (hq : jsTrim qkey = qkey)
    (hhas : jsTrim rkey ≠ "" → bucketHasFile m (jsTrim rkey) p)
    (hmatch : qkey = "" ∨ rkey = qkey) :
    ∀ S ∈ dimSet m qkey, p ∈ S := by
  intro S hS
  unfold dimSet at hS
  by_cases hq0 : qkey = ""
  · have hqt : ¬(jsTrim qkey ≠ "") := by rw [hq, hq0]; simp
    rw [if_neg hqt] at hS
    cases hS
  · have hqt : jsTrim qkey ≠ "" := by rw [hq]; exact hq0
    rw [if_pos hqt] at hS
    rcases hmatch with h | h
    · exact absurd h hq0
    · have hrk : jsTrim rkey ≠ "" := by rw [h, hq]; exact hq0
      obtain ⟨b, hb, hpb⟩ := hhas hrk
      rw [h] at hb
      simp only [hb] at hS
      have hbne : b ≠ [] := by
        intro h0
        rw [h0] at hpb
        cases hpb
      rw [if_pos hbne] at hS
      have hSb : S = b := by simpa using hS
      rw [hSb]
      exact hpb

theorem unionChunk_mem {idx : MemoryIndex} {ds : List String} {r : Record} {p : String}
    (hkey : jsTrim (sliceChars 10 r.ts) ∈ ds)
    (hdsfix : ∀ d ∈ ds, jsTrim d = d)
    (hdsne : ∀ d ∈ ds, d ≠ "")
    (hhas : jsTrim (sliceChars 10 r.ts) ≠ "" →
      bucketHasFile idx.byDayStamp (jsTrim (sliceChars 10 r.ts)) p) :
    p ∈ unionBuckets idx.byDayStamp ds := by
  have hkne : jsTrim (sliceChars 10 r.ts) ≠ "" := hdsne _ hkey
  obtain ⟨b, hb, hpb⟩ := hhas hkne
  refine (mem_unionBuckets _ _ _).mpr
    ⟨jsTrim (sliceChars 10 r.ts), hkey, ?_, b, ?_, hpb⟩
  · rw [hdsfix _ hkey]; exact hkne
  · rw [hdsfix _ hkey]; exact hb

theorem existsFile_of_mem_listArchiveFiles {fs : FS} {ds : List String} {p : String}
    (hp : p ∈ listArchiveFilesByDays fs ds) : existsFile fs p = true := by
  unfold listArchiveFilesByDays at hp
  split at hp
  · rename_i hroot
    obtain ⟨d, hd, hp2⟩ := List.mem_flatMap.mp hp
    cases hfind : fs.days.find? (fun x => x.day == d) with
    | none => simp [hfind] at hp2
    | some dd =>
      simp only [hfind] at hp2
      obtain ⟨f, hf, rfl⟩ := List.mem_map.mp hp2
      have hdd_mem := List.mem_of_find?_eq_some hfind
      have hdd_day : dd.day = d := by
        have := List.find?_some hfind
        simpa using this
      unfold existsFile
      simp only [hroot, Bool.true_and]
      rw [List.any_eq_true]
      refine ⟨dd, hdd_mem, ?_⟩
      rw [List.any_eq_true]
      refine ⟨f, (List.mem_filter.mp hf).1, ?_⟩
      rw [hdd_day]
      simp
  · cases hp

theorem matched_file_in_candidates (o : StoreOptions) (fs : FS) (now : Int)
    (qn : QueryNorm)
    (hP : ∀ p ∈ listArchiveFilesByDays fs (collectDayDirectories fs now qn.days),
      jsTrim p = p)
    (hD : ∀ p ∈ listArchiveFilesByDays fs (collectDayDirectories fs now qn.days),
      ∀ r ∈ readJsonLines fs p,
        jsTrim (sliceChars 10 r.ts) ∈ collectDayDirectories fs now qn.days)
    (hQs : jsTrim qn.sessionId = qn.sessionId)
    (hQt : jsTrim qn.tabId = qn.tabId)
    (hQe : jsTrim qn.eventType = qn.eventType)
    (p : String)
    (hp : p ∈ listArchiveFilesByDays fs (collectDayDirectories fs now qn.days))
    (r : Record) (hr : r ∈ readJsonLines fs p)
    (hm : matchesFilters qn r = true) :
    p ∈ indexedCandidates o fs now initialStoreState qn := by
  set ds := collectDayDirectories fs now qn.days with hds_def
  have hds_ne : ds ≠ [] := by
    intro h0
    rw [h0] at hp
    simp [listArchiveFilesByDays] at hp
  have hfold : hydratedIdx o fs now initialStoreState qn
      = ds.foldl (hydrateStep fs) emptyIndex := by
    show hydrateIndexForDays fs ds emptyIndex = _
    exact hydrateIndexForDays_empty_eq_fold hds_ne
  have hdfix : ∀ d ∈ ds, jsTrim d = d :=
    fun d hd => jsTrim_of_isDayStamp (isDayStamp_of_mem_collectDayDirectories hd)
  have hdne : ∀ d ∈ ds, d ≠ "" :=
    fun d hd => isDayStamp_ne_empty (isDayStamp_of_mem_collectDayDirectories hd)
  have hcomp := (hydrateFold_complete fs ds emptyIndex
      (fun d hd => ⟨hdfix d hd, hdne d hd⟩)
      (fun d hd q hq =>
        ⟨hP q (mem_listArchiveFilesByDays.mpr ⟨d, hd, hq⟩),
          listArchiveFilesByDays_ne_empty q hq⟩)
      (fun x hx => absurd hx (List.not_mem_nil x))).2
  obtain ⟨d0, hd0, hp0⟩ := mem_listArchiveFilesByDays.mp hp
  have hrec : idxHasRecord (hydratedIdx o fs now initialStoreState qn) r p := by
    rw [hfold]
    exact hcomp d0 hd0 p hp0 r hr
  obtain ⟨hrs, hrt, hre, hrd⟩ := hrec
  have hm' := hm
  unfold matchesFilters at hm'
  simp only [Bool.and_eq_true, Bool.or_eq_true, beq_iff_eq, decide_eq_true_eq] at hm'
  obtain ⟨⟨⟨⟨hms, hmt⟩, hmc⟩, hme⟩, hmk⟩ := hm'
  have hu : p ∈ unionBuckets (hydratedIdx o fs now initialStoreState qn).byDayStamp ds :=
    unionChunk_mem (hD p hp r hr) hdfix hdne hrd
  have hu_ne :
      unionBuckets (hydratedIdx o fs now initialStoreState qn).byDayStamp ds ≠ [] := by
    intro h0
    rw [h0] at hu
    cases hu
  have humem :
      unionBuckets (hydratedIdx o fs now initialStoreState qn).byDayStamp ds ∈
        candidateSets (hydratedIdx o fs now initialStoreState qn)
          ⟨qn.sessionId, qn.tabId, qn.eventType, ds⟩ := by
    show unionBuckets (hydratedIdx o fs now initialStoreState qn).byDayStamp ds ∈
      dimSet (hydratedIdx o fs now initialStoreState qn).bySessionId qn.sessionId ++
      dimSet (hydratedIdx o fs now initialStoreState qn).byTabId qn.tabId ++
      dimSet (hydratedIdx o fs now initialStoreState qn).byEventType qn.eventType ++
      (if ds ≠ [] then
        (if unionBuckets (hydratedIdx o fs now initialStoreState qn).byDayStamp ds ≠ []
          then [unionBuckets (hydratedIdx o fs now initialStoreState qn).byDayStamp ds]
          else [])
        else [])
    rw [if_pos hds_ne, if_pos hu_ne]
    simp
  have hall : ∀ S ∈ candidateSets (hydratedIdx o fs now initialStoreState qn)
      ⟨qn.sessionId, qn.tabId, qn.eventType, ds⟩, p ∈ S := by
    intro S hS
    have hS' : S ∈
      dimSet (hydratedIdx o fs now initialStoreState qn).bySessionId qn.sessionId ++
      dimSet (hydratedIdx o fs now initialStoreState qn).byTabId qn.tabId ++
      dimSet (hydratedIdx o fs now initialStoreState qn).byEventType qn.eventType ++
      (if ds ≠ [] then
        (if unionBuckets (hydratedIdx o fs now initialStoreState qn).byDayStamp ds ≠ []
          then [unionBuckets (hydratedIdx o fs now initialStoreState qn).byDayStamp ds]
          else [])
        else []) := hS
    rw [if_pos hds_ne, if_pos hu_ne] at hS'
    rcases List.mem_append.mp hS' with hS2 | hS2
    · rcases List.mem_append.mp hS2 with hS3 | hS3
      · rcases List.mem_append.mp hS3 with hS4 | hS4
        · exact dimSet_mem_of_match hQs hrs hms S hS4
        · exact dimSet_mem_of_match hQt hrt hmt S hS4
      · exact dimSet_mem_of_match hQe hre hme S hS3
    · have hSu : S
          = unionBuckets (hydratedIdx o fs now initialStoreState qn).byDayStamp ds := by
        simpa using hS2
      rw [hSu]
      exact hu
  have hgc : p ∈ getCandidateFiles (hydratedIdx o fs now initialStoreState qn)
      ⟨qn.sessionId, qn.tabId, qn.eventType, ds⟩ :=
    (mem_getCandidateFiles _ _ _).mpr ⟨List.ne_nil_of_mem humem, hall⟩
  show p ∈ (getCandidateFiles (hydratedIdx o fs now initialStoreState qn)
      ⟨qn.sessionId, qn.tabId, qn.eventType, ds⟩).filter (fun q => existsFile fs q)
  exact List.mem_filter.mpr ⟨hgc, existsFile_of_mem_listArchiveFiles hp⟩

theorem collect_shortcircuit (o : StoreOptions) (fs : FS) (now : Int) (st : StoreState)
    (qn : QueryNorm)
    (h : qn.sessionId ≠ "" ∧ resolveArchiveFileBySessionId o fs st qn.sessionId ≠ "") :
    collectFilesForQuery o fs now st qn
      = ⟨[resolveArchiveFileBySessionId o fs st qn.sessionId], [], false, st.idx⟩ := by
  unfold collectFilesForQuery
  rw [if_pos h]

theorem collect_legacy (o : StoreOptions) (fs : FS) (now : Int) (st : StoreState)
    (qn : QueryNorm)
    (hns : ¬(qn.sessionId ≠ "" ∧ resolveArchiveFileBySessionId o fs st qn.sessionId ≠ ""))
    (hmode : qn.queryMode = QueryMode.legacy) :
    collectFilesForQuery o fs now st qn
      = ⟨listArchiveFilesByDays fs (collectDayDirectories fs now qn.days),
          collectDayDirectories fs now qn.days, false, st.idx⟩ := by
  unfold collectFilesForQuery
  rw [if_neg hns, if_pos hmode]

theorem collect_auto_indexed (o : StoreOptions) (fs : FS) (now : Int) (st : StoreState)
    (qn : QueryNorm)
    (hns : ¬(qn.sessionId ≠ "" ∧ resolveArchiveFileBySessionId o fs st qn.sessionId ≠ ""))
    (hmode : ¬(qn.queryMode = QueryMode.legacy))
    (hC : indexedCandidates o fs now st qn ≠ []) :
    collectFilesForQuery o fs now st qn
      = ⟨indexedCandidates o fs now st qn, collectDayDirectories fs now qn.days, true,
          hydratedIdx o fs now st qn⟩ := by
  unfold collectFilesForQuery
  rw [if_neg hns, if_neg hmode, if_pos hC]

theorem collect_auto_fallback (o : StoreOptions) (fs : FS) (now : Int) (st : StoreState)
    (qn : QueryNorm)
    (hns : ¬(qn.sessionId ≠ "" ∧ resolveArchiveFileBySessionId o fs st qn.sessionId ≠ ""))
    (hmode : ¬(qn.queryMode = QueryMode.legacy))
    (hC : ¬(indexedCandidates o fs now st qn ≠ [])) :
    collectFilesForQuery o fs now st qn
      = ⟨listArchiveFilesByDays fs (collectDayDirectories fs now qn.days),
          collectDayDirectories fs now qn.days, false, hydratedIdx o fs now st qn⟩ := by
  unfold collectFilesForQuery
  rw [if_neg hns, if_neg hmode, if_neg hC]

theorem query_total (o : StoreOptions) (fs : FS) (now : Int) (st : StoreState)
    (q : QueryInput) :
    (query o fs now st q).1.total
      = (queryMatched o fs now st (normalizeQueryOptions o q)).length := by
  by_cases hr : o.hasRoot = false
  · simp [query, hr, queryMatched]
  · simp [query, if_neg hr]

theorem query_records (o : StoreOptions) (fs : FS) (now : Int) (st : StoreState)
    (q : QueryInput) (hr : ¬(o.hasRoot = false)) :
    (query o fs now st q).1.records
      = (stableSort tsDescLe
          (queryMatched o fs now st (normalizeQueryOptions o q))).take
          (normalizeQueryOptions o q).limit.toNat := by
  simp [query, if_neg hr]

theorem setMode_self {qn : QueryNorm} (h : qn.queryMode = QueryMode.legacy) :
    ({qn with queryMode := QueryMode.legacy} : QueryNorm) = qn := by
  rw [← h]

theorem c1_core (o : StoreOptions) (fs : FS) (now : Int) (qn : QueryNorm)
    (hroot : o.hasRoot = true)
    (hN : (listArchiveFilesByDays fs (collectDayDirectories fs now qn.days)).Nodup)
    (hP : ∀ p ∈ listArchiveFilesByDays fs (collectDayDirectories fs now qn.days),
      jsTrim p = p)
    (hD : ∀ p ∈ listArchiveFilesByDays fs (collectDayDirectories fs now qn.days),
      ∀ r ∈ readJsonLines fs p,
        jsTrim (sliceChars 10 r.ts) ∈ collectDayDirectories fs now qn.days)
    (hQs : jsTrim qn.sessionId = qn.sessionId)
    (hQt : jsTrim qn.tabId = qn.tabId)
    (hQe : jsTrim qn.eventType = qn.eventType) :
    (queryMatched o fs now initialStoreState
        {qn with queryMode := QueryMode.auto}).Perm
      (queryMatched o fs now initialStoreState
        {qn with queryMode := QueryMode.legacy}) := by
  have hroot' : ¬(o.hasRoot = false) := by rw [hroot]; simp
  have e1 : matchesFilters {qn with queryMode := QueryMode.auto} = matchesFilters qn := rfl
  have e2 : matchesFilters {qn with queryMode := QueryMode.legacy} = matchesFilters qn :=
    rfl
  unfold queryMatched
  rw [if_neg hroot', if_neg hroot', e1, e2]
  by_cases hsc : qn.sessionId ≠ "" ∧
      resolveArchiveFileBySessionId o fs initialStoreState qn.sessionId ≠ ""
  · rw [collect_shortcircuit o fs now initialStoreState
        {qn with queryMode := QueryMode.auto} hsc,
      collect_shortcircuit o fs now initialStoreState
        {qn with queryMode := QueryMode.legacy} hsc]
  · have hcolL := collect_legacy o fs now initialStoreState
      {qn with queryMode := QueryMode.legacy} hsc rfl
    rw [hcolL]
    have hmodeA : ¬(({qn with queryMode := QueryMode.auto} : QueryNorm).queryMode
        = QueryMode.legacy) := fun h => QueryMode.noConfusion h
    by_cases hC : indexedCandidates o fs now initialStoreState
        {qn with queryMode := QueryMode.auto} ≠ []
    · rw [collect_auto_indexed o fs now initialStoreState
        {qn with queryMode := QueryMode.auto} hsc hmodeA hC]
      show ((indexedCandidates o fs now initialStoreState
          {qn with queryMode := QueryMode.auto}).flatMap
          (fun p => (readJsonLines fs p).filter (matchesFilters qn))).Perm
        ((listArchiveFilesByDays fs (collectDayDirectories fs now qn.days)).flatMap
          (fun p => (readJsonLines fs p).filter (matchesFilters qn)))
      have hsubIdx : idxSub
          (hydrateIndexForDays fs (collectDayDirectories fs now qn.days) emptyIndex)
          (listArchiveFilesByDays fs (collectDayDirectories fs now qn.days)) :=
        idxSub_hydrateIndexForDays _ (fun d hd q hq =>
          ⟨hP q (mem_listArchiveFilesByDays.mpr ⟨d, hd, hq⟩),
            mem_listArchiveFilesByDays.mpr ⟨d, hd, hq⟩⟩)
      have hAnodup : (indexedCandidates o fs now initialStoreState
          {qn with queryMode := QueryMode.auto}).Nodup :=
        List.Nodup.filter _ (nodup_getCandidateFiles _ _)
      have hsub : ∀ x ∈ indexedCandidates o fs now initialStoreState
          {qn with queryMode := QueryMode.auto},
          x ∈ listArchiveFilesByDays fs (collectDayDirectories fs now qn.days) :=
        fun x hx => getCandidateFiles_subset _ hsubIdx x ((List.mem_filter.mp hx).1)
      have hnil : ∀ p ∈ listArchiveFilesByDays fs (collectDayDirectories fs now qn.days),
          p ∉ indexedCandidates o fs now initialStoreState
            {qn with queryMode := QueryMode.auto} →
          (readJsonLines fs p).filter (matchesFilters qn) = [] := by
        intro p hpb hpc
        by_contra hne
        obtain ⟨r, hr⟩ := List.exists_mem_of_ne_nil _ hne
        have hrmem := List.mem_filter.mp hr
        exact hpc (matched_file_in_candidates o fs now
          {qn with queryMode := QueryMode.auto} hP hD hQs hQt hQe p hpb r
          hrmem.1 hrmem.2)
      exact flatMap_perm_of_subset _ hAnodup hN hsub hnil
    · rw [collect_auto_fallback o fs now initialStoreState
        {qn with queryMode := QueryMode.auto} hsc hmodeA hC]

/-- C1 (amended): for a query served from a fresh store, `auto` and `legacy`
mode agree — provided the day-window file list is duplicate-free with
whitespace-trimmed paths, every record's `ts` day stamp falls (after trimming)
inside the queried day window, and the normalized `sessionId`/`tabId`/
`eventType` filters are whitespace-trimmed.  Under those conditions the two
modes report the same `total`, and the same `records` up to order whenever the
match count fits the limit.  The spec's stale-index scenario is confirmed
verbatim: after record A is indexed and the day marked loaded, a new file with
record B is invisible to an `auto` keyword query (`total` 0) while a `legacy`
query finds it (`total` 1). -/
theorem c1_auto_legacy_equivalence_amended :
    (∀ (o : StoreOptions) (fs : FS) (now : Int) (qA qL : QueryInput),
      normalizeQueryOptions o qA
          = {normalizeQueryOptions o qL with queryMode := QueryMode.auto} →
      (normalizeQueryOptions o qL).queryMode = QueryMode.legacy →
      (listArchiveFilesByDays fs
          (collectDayDirectories fs now (normalizeQueryOptions o qL).days)).Nodup →
      (∀ p ∈ listArchiveFilesByDays fs
          (collectDayDirectories fs now (normalizeQueryOptions o qL).days),
        jsTrim p = p) →
      (∀ p ∈ listArchiveFilesByDays fs
          (collectDayDirectories fs now (normalizeQueryOptions o qL).days),
        ∀ r ∈ readJsonLines fs p,
          jsTrim (sliceChars 10 r.ts)
            ∈ collectDayDirectories fs now (normalizeQueryOptions o qL).days) →
      jsTrim (normalizeQueryOptions o qL).sessionId
          = (normalizeQueryOptions o qL).sessionId →
      jsTrim (normalizeQueryOptions o qL).tabId = (normalizeQueryOptions o qL).tabId →
      jsTrim (normalizeQueryOptions o qL).eventType
          = (normalizeQueryOptions o qL).eventType →
      (query o fs now initialStoreState qA).1.total
          = (query o fs now initialStoreState qL).1.total ∧
      ((query o fs now initialStoreState qL).1.total
            ≤ (normalizeQueryOptions o qL).limit.toNat →
        ((query o fs now initialStoreState qA).1.records).Perm
          (query o fs now initialStoreState qL).1.records)) ∧
    (query optsW fsW2 nowW stW2 qNeedleAuto).1.total = 0 ∧
    (query optsW fsW2 nowW stW2 qNeedleLegacy).1.total = 1 := by
  refine ⟨?_, by decide, by decide⟩
  intro o fs now qA qL hmode hmodeL hN hP hD hQs hQt hQe
  by_cases hroot : o.hasRoot = false
  · constructor
    · rw [query_total o fs now initialStoreState qA,
        query_total o fs now initialStoreState qL]
      unfold queryMatched
      rw [if_pos hroot, if_pos hroot]
    · intro _
      have hA : (query o fs now initialStoreState qA).1.records = [] := by
        simp [query, hroot]
      have hL : (query o fs now initialStoreState qL).1.records = [] := by
        simp [query, hroot]
      rw [hA, hL]
  · have hroot' : o.hasRoot = true := by
      rcases Bool.eq_false_or_eq_true o.hasRoot with h | h
      · exact h
      · exact absurd h hroot
    have hperm := c1_core o fs now (normalizeQueryOptions o qL) hroot' hN hP hD hQs hQt hQe
    have hqnL : ({normalizeQueryOptions o qL with queryMode := QueryMode.legacy} :
        QueryNorm) = normalizeQueryOptions o qL := setMode_self hmodeL
    rw [hqnL] at hperm
    have hperm2 : (queryMatched o fs now initialStoreState
        (normalizeQueryOptions o qA)).Perm
        (queryMatched o fs now initialStoreState (normalizeQueryOptions o qL)) := by
      rw [hmode]
      exact hperm
    constructor
    · rw [query_total o fs now initialStoreState qA,
        query_total o fs now initialStoreState qL]
      exact hperm2.length_eq
    · intro hlim
      rw [query_records o fs now initialStoreState qA hroot,
        query_records o fs now initialStoreState qL hroot]
      rw [query_total o fs now initialStoreState qL] at hlim
      have hlenL : (stableSort tsDescLe (queryMatched o fs now initialStoreState
          (normalizeQueryOptions o qL))).length
          ≤ (normalizeQueryOptions o qL).limit.toNat := by
        rw [(stableSort_perm tsDescLe _).length_eq]
        exact hlim
      have hlimA : (normalizeQueryOptions o qA).limit
          = (normalizeQueryOptions o qL).limit := by rw [hmode]
      have hlenA : (stableSort tsDescLe (queryMatched o fs now initialStoreState
          (normalizeQueryOptions o qA))).length
          ≤ (normalizeQueryOptions o qA).limit.toNat := by
        rw [(stableSort_perm tsDescLe _).length_eq, hperm2.length_eq, hlimA]
        exact hlim
      rw [List.take_of_length_le hlenA, List.take_of_length_le hlenL]
      exact ((stableSort_perm tsDescLe _).trans hperm2).trans
        (stableSort_perm tsDescLe _).symm

/-- Counterexample to C1 as stated: in `fsCex` the keyword-bearing record sits
in an in-window day directory but carries an out-of-window `ts` day stamp, so
even though the `auto` query fully hydrates the relevant day range (third
conjunct), it reports `total` 0 while the `legacy` scan of the same files
reports `total` 1. -/
theorem c1_counterexample :
    (query optsW fsCex nowW initialStoreState qNeedleAuto).1.total = 0 ∧
    (query optsW fsCex nowW initialStoreState qNeedleLegacy).1.total = 1 ∧
    areDaysLoaded ((query optsW fsCex nowW initialStoreState qNeedleAuto).2.idx)
      (collectDayDirectories fsCex nowW
        (normalizeQueryOptions optsW qNeedleAuto).days) = true := by
  decide

/-- Witness for C1's amended equivalence on the two-file day `fsW2` queried
from a fresh store. -/
theorem c1_witness :
    (normalizeQueryOptions optsW qNeedleAuto
        = {normalizeQueryOptions optsW qNeedleLegacy with
            queryMode := QueryMode.auto}) ∧
    (normalizeQueryOptions optsW qNeedleLegacy).queryMode = QueryMode.legacy ∧
    (query optsW fsW2 nowW initialStoreState qNeedleAuto).1.total
      = (query optsW fsW2 nowW initialStoreState qNeedleLegacy).1.total ∧
    ((query optsW fsW2 nowW initialStoreState qNeedleAuto).1.records).Perm
      (query optsW fsW2 nowW initialStoreState qNeedleLegacy).1.records := by
  have h := c1_auto_legacy_equivalence_amended.1 optsW fsW2 nowW qNeedleAuto qNeedleLegacy
    (by decide) (by decide) (by decide) (by decide) (by decide) (by decide) (by decide)
    (by decide)
  exact ⟨by decide, by decide, h.1, h.2 (by decide)⟩

end ShaoTerm
